import Mathlib

/-!
Verification of the core storage and concurrency engine of the bustub-2022
repository: the lock manager (lock modes, grant rule, 2PL transitions,
deadlock detector), the LRU-K replacer, the buffer pool manager's unpin
operation, the extendible hash table, and the B+ tree index.

Each C++ function under scrutiny is shallowly embedded as an executable Lean
definition over explicit state; machine integers become `Nat`/`Int`, mutation
becomes state passing, and `throw` becomes an `Option AbortReason` result.
-/

namespace BusTub

/-! ## Lock manager: modes and compatibility (src/concurrency/lock_manager.cpp) -/

/-- The five lock modes of `LockManager::LockMode`. -/
inductive LockMode where
  | shared
  | exclusive
  | intentionShared
  | intentionExclusive
  | sharedIntentionExclusive
  deriving DecidableEq, Repr, Fintype

open LockMode

/-- `LockManager::LockModeCompatible` (lock_manager.cpp lines 303-316):
`left` is the mode of an earlier queue entry, `right` the mode of the entry
being tested. -/
def LockModeCompatible (left right : LockMode) : Bool :=
  match left with
  | .shared => right == .shared || right == .intentionShared
  | .exclusive => false
  | .intentionExclusive => right == .intentionExclusive || right == .intentionShared
  | .sharedIntentionExclusive => right == .intentionShared
  | .intentionShared => right != .exclusive

/-- The five-mode compatibility matrix exactly as the specification prints it
(rows: held mode, columns: requested mode). -/
def specCompatMatrix (held requested : LockMode) : Bool :=
  match held, requested with
  | .intentionShared, .intentionShared => true
  | .intentionShared, .intentionExclusive => true
  | .intentionShared, .shared => true
  | .intentionShared, .sharedIntentionExclusive => true
  | .intentionShared, .exclusive => false
  | .intentionExclusive, .intentionShared => true
  | .intentionExclusive, .intentionExclusive => true
  | .intentionExclusive, .shared => false
  | .intentionExclusive, .sharedIntentionExclusive => false
  | .intentionExclusive, .exclusive => false
  | .shared, .intentionShared => true
  | .shared, .intentionExclusive => false
  | .shared, .shared => true
  | .shared, .sharedIntentionExclusive => false
  | .shared, .exclusive => false
  | .sharedIntentionExclusive, .intentionShared => true
  | .sharedIntentionExclusive, .intentionExclusive => false
  | .sharedIntentionExclusive, .shared => false
  | .sharedIntentionExclusive, .sharedIntentionExclusive => false
  | .sharedIntentionExclusive, .exclusive => false
  | .exclusive, _ => false

/-! ## Lock manager: 2PL state transition on unlock -/

/-- `TransactionState` (concurrency/transaction.h). -/
inductive TransactionState where
  | growing
  | shrinking
  | committed
  | aborted
  deriving DecidableEq, Repr

/-- `IsolationLevel` (concurrency/transaction.h). -/
inductive IsolationLevel where
  | readUncommitted
  | readCommitted
  | repeatableRead
  deriving DecidableEq, Repr, Fintype

/-- `AbortReason` (concurrency/transaction.h); the taxonomy surfaced by
`TransactionAbortException`. -/
inductive AbortReason where
  | lockOnShrinking
  | lockSharedOnReadUncommitted
  | upgradeConflict
  | incompatibleUpgrade
  | attemptedIntentionLockOnRow
  | tableLockNotPresent
  | tableUnlockedBeforeUnlockingRows
  | attemptedUnlockButNoLockHeld
  | deadlock
  deriving DecidableEq, Repr

/-- `LockManager::UpdateTxnState` (lock_manager.cpp lines 177-204), the
shrinking transition applied by `UnlockTable`/`UnlockRow` after removing the
granted entry.  Returns the new transaction state together with the abort
reason thrown, if any. -/
def UpdateTxnState (state : TransactionState) (iso : IsolationLevel)
    (lock_mode : LockMode) : TransactionState × Option AbortReason :=
  if lock_mode ≠ .exclusive ∧ lock_mode ≠ .shared then (state, none)
  else if state ≠ .growing then (state, none)
  else
    match iso with
    | .readCommitted =>
        if lock_mode = .exclusive then (.shrinking, none) else (state, none)
    | .readUncommitted =>
        if lock_mode = .exclusive then (.shrinking, none)
        else (.aborted, some .lockSharedOnReadUncommitted)
    | .repeatableRead => (.shrinking, none)

/-! ## Lock manager: the grant rule -/

/-- Inner loop of `LockManager::GrantLock` (lock_manager.cpp lines 327-333):
walk the queue from the beginning up to (excluding) position `p` and require
each mode met to be compatible with the mode at position `p`. -/
def grantCheckPrefix (q : List LockMode) (p : Nat) : Bool :=
  (q.take p).all fun m => LockModeCompatible m (q.getD p .exclusive)

/-- Outer loop of `LockManager::GrantLock` (lock_manager.cpp lines 317-337):
starting from the request's position, repeat the prefix check at positions
`pos, pos-1, ..., 1` and grant only if every check passes. -/
def GrantLock (q : List LockMode) : Nat → Bool
  | 0 => true
  | p + 1 => grantCheckPrefix q (p + 1) && GrantLock q p

/-! ## Theorems: C3, C5, C1 -/

/-- C3. For every pair of lock modes (held, requested), `LockModeCompatible`
returns true exactly per the five-mode compatibility matrix: IS conflicts only
with X; IX is compatible with IS and IX only; S is compatible with IS and S
only; SIX is compatible with IS only; X is compatible with nothing. -/
theorem lockModeCompatible_matches_matrix :
    ∀ held requested : LockMode,
      LockModeCompatible held requested = specCompatMatrix held requested := by
  decide

/-- C5. For a growing transaction releasing a granted lock: releasing X moves
it to shrinking under every isolation level; releasing S moves it to shrinking
under repeatable-read, leaves it growing under read-committed, and under
read-uncommitted sets it to aborted raising `LOCK_SHARED_ON_READ_UNCOMMITTED`;
releasing IS/IX/SIX never changes the phase. -/
theorem updateTxnState_shrinking_transition :
    (∀ iso, UpdateTxnState .growing iso .exclusive = (.shrinking, none)) ∧
    UpdateTxnState .growing .repeatableRead .shared = (.shrinking, none) ∧
    UpdateTxnState .growing .readCommitted .shared = (.growing, none) ∧
    UpdateTxnState .growing .readUncommitted .shared
      = (.aborted, some .lockSharedOnReadUncommitted) ∧
    (∀ iso,
      UpdateTxnState .growing iso .intentionShared = (.growing, none) ∧
      UpdateTxnState .growing iso .intentionExclusive = (.growing, none) ∧
      UpdateTxnState .growing iso .sharedIntentionExclusive = (.growing, none)) := by
  decide

/-- C1 (counterexample). In the queue `[S, IX, IS]` the entry at position 2
(mode IS) is compatible with both earlier entries, yet `GrantLock` refuses it,
because `GrantLock` additionally requires every earlier entry to be compatible
with all entries before it (here IX at position 1 conflicts with S at
position 0).  So "grantable iff compatible with every earlier entry" is false. -/
theorem grantLock_not_pairwise_with_request_only :
    GrantLock [.shared, .intentionExclusive, .intentionShared] 2 = false ∧
    LockModeCompatible .shared .intentionShared = true ∧
    LockModeCompatible .intentionExclusive .intentionShared = true := by
  decide

/-- C1 (amended). An entry `r` at position `pos` of the queue is grantable iff
every entry at a position `1 ≤ p ≤ pos` (`r` itself included) is compatible
with every entry earlier than it: the whole queue prefix ending at `r` must be
pairwise compatible, not merely the earlier entries with `r`. -/
theorem grantLock_iff_prefix_pairwise_compatible :
    ∀ (q : List LockMode) (pos : Nat), pos < q.length →
      (GrantLock q pos = true ↔
        ∀ p, 1 ≤ p → p ≤ pos → ∀ i < p,
          LockModeCompatible (q.getD i .exclusive) (q.getD p .exclusive) = true) := by
  intro q pos hpos
  induction pos with
  | zero =>
      simp [GrantLock]
      intro p hp hp0
      omega
  | succ n ih =>
      have hn : n < q.length := Nat.lt_of_succ_lt hpos
      constructor
      · intro h p hp1 hple i hip
        have h' : grantCheckPrefix q (n + 1) = true ∧ GrantLock q n = true := by
          simpa [GrantLock, Bool.and_eq_true] using h
        rcases Nat.lt_or_ge p (n + 1) with hlt | hge
        · exact ((ih hn).mp h'.2) p hp1 (Nat.lt_succ_iff.mp hlt) i hip
        · have hpe : p = n + 1 := Nat.le_antisymm hple hge
          subst hpe
          have := h'.1
          unfold grantCheckPrefix at this
          rw [List.all_eq_true] at this
          apply this
          have : i < q.length := lt_of_lt_of_le hip (Nat.le_of_lt hpos)
          refine List.mem_take_iff_getElem.mpr ⟨i, by omega, ?_⟩
          simp [List.getD, List.getElem?_eq_getElem this]
      · intro h
        have hrec : GrantLock q n = true :=
          (ih hn).mpr fun p hp1 hple i hip =>
            h p hp1 (Nat.le_succ_of_le hple) i hip
        have hpre : grantCheckPrefix q (n + 1) = true := by
          unfold grantCheckPrefix
          rw [List.all_eq_true]
          intro m hm
          rw [List.mem_take_iff_getElem] at hm
          obtain ⟨i, hi, rfl⟩ := hm
          have hiq : i < n + 1 := by omega
          have := h (n + 1) (Nat.le_add_left 1 n) le_rfl i hiq
          simpa [List.getD, List.getElem?_eq_getElem (by omega : i < q.length)] using this
        simp [GrantLock, hpre, hrec]

/-- Witness for C1 (amended): in the queue `[S, IS]` the waiter at position 1
is grantable. -/
theorem grantLock_iff_prefix_pairwise_compatible_witness :
    GrantLock [LockMode.shared, LockMode.intentionShared] 1 = true :=
  (grantLock_iff_prefix_pairwise_compatible
      [LockMode.shared, LockMode.intentionShared] 1 (by decide)).mpr
    (by decide)

/-! ## LRU-K replacer (src/buffer/lru_k_replacer.cpp, unnamed part_003 variant) -/

/-- Per-frame record of the LRU-K replacer (`LRUKReplacer::Record`): frame id,
evictable flag, and the FIFO queue of the last at most `k` access timestamps,
oldest at the head. -/
structure LRUKRecord where
  frame_id : Nat
  evictable : Bool
  que : List Nat
  deriving DecidableEq, Repr

/-- State of `LRUKReplacer`: the bound `k`, the logical clock
`current_timestamp_`, the count of evictable frames `curr_size_` and the
record list (the map `mp_` is the index of `record_list_` by frame id). -/
structure LRUKReplacer where
  k : Nat
  current_timestamp : Nat
  curr_size : Nat
  record_list : List LRUKRecord
  deriving DecidableEq, Repr

/-- Scan loop of `LRUKReplacer::FindLessK` (part_003 lines 18-36): keep the
evictable frame with fewer than `k` recorded accesses whose oldest timestamp
is strictly earlier than the best so far. -/
def FindLessKAux (k : Nat) : List LRUKRecord → Option Nat × Nat → Option Nat × Nat
  | [], acc => acc
  | p :: rest, (best, earliest) =>
      if p.evictable ∧ p.que.length < k ∧ p.que.headD 0 < earliest then
        FindLessKAux k rest (some p.frame_id, p.que.headD 0)
      else
        FindLessKAux k rest (best, earliest)

/-- `LRUKReplacer::FindLessK`: the best-so-far starts at `current_timestamp_`. -/
def FindLessK (r : LRUKReplacer) : Option Nat :=
  (FindLessKAux r.k r.record_list (none, r.current_timestamp)).1

/-- Scan loop of `LRUKReplacer::FindEqualK` (part_003 lines 37-55): among the
evictable frames with exactly `k` recorded accesses, keep the one whose k-th
most recent access (the queue head) is earliest, i.e. whose backward
K-distance is largest. -/
def FindEqualKAux (k : Nat) : List LRUKRecord → Option Nat × Nat → Option Nat × Nat
  | [], acc => acc
  | p :: rest, (best, earliest) =>
      if p.evictable ∧ p.que.length = k ∧ p.que.headD 0 < earliest then
        FindEqualKAux k rest (some p.frame_id, p.que.headD 0)
      else
        FindEqualKAux k rest (best, earliest)

/-- `LRUKReplacer::FindEqualK`. -/
def FindEqualK (r : LRUKReplacer) : Option Nat :=
  (FindEqualKAux r.k r.record_list (none, r.current_timestamp)).1

/-- Erasing a frame's record (`record_list_.erase(p); curr_size_--;
mp_.erase(id)`). -/
def eraseRecord (r : LRUKReplacer) (id : Nat) : LRUKReplacer :=
  { r with
    record_list := r.record_list.filter fun p => p.frame_id ≠ id
    curr_size := r.curr_size - 1 }

/-- `LRUKReplacer::Evict` (part_003 lines 59-72): bump the clock, look for an
under-sampled victim first, then for a fully-sampled one, erase the victim's
record, and report failure when neither scan finds an evictable frame. -/
def Evict (r : LRUKReplacer) : Option Nat × LRUKReplacer :=
  let r := { r with current_timestamp := r.current_timestamp + 1 }
  match FindLessK r with
  | some id => (some id, eraseRecord r id)
  | none =>
      match FindEqualK r with
      | some id => (some id, eraseRecord r id)
      | none => (none, r)

/-- `LRUKReplacer::SetEvictable` (part_003 lines 92-106): no-op when the frame
has no record; otherwise adjust `curr_size_` and overwrite the flag. -/
def SetEvictable (r : LRUKReplacer) (frame_id : Nat) (set_evictable : Bool) :
    LRUKReplacer :=
  match r.record_list.find? (fun p => p.frame_id == frame_id) with
  | none => r
  | some p =>
      { r with
        curr_size :=
          if set_evictable ∧ ¬p.evictable then r.curr_size + 1
          else if ¬set_evictable ∧ p.evictable then r.curr_size - 1
          else r.curr_size
        record_list := r.record_list.map fun q =>
          if q.frame_id == frame_id then { q with evictable := set_evictable } else q }

/-- `LRUKReplacer::RecordAccess` (part_003 lines 74-90): bump the clock; push
the new timestamp onto the frame's queue, dropping the oldest when the queue
exceeds `k`; a first access creates the record at the head of the list. -/
def RecordAccess (r : LRUKReplacer) (frame_id : Nat) : LRUKReplacer :=
  let ts := r.current_timestamp + 1
  let r := { r with current_timestamp := ts }
  if (r.record_list.find? fun p => p.frame_id == frame_id).isSome then
    { r with
      record_list := r.record_list.map fun p =>
        if p.frame_id == frame_id then
          let que := p.que ++ [ts]
          { p with que := if que.length = r.k + 1 then que.tail else que }
        else p }
  else
    { r with record_list := ⟨frame_id, false, [ts]⟩ :: r.record_list }

/-- Backward K-distance of a record at clock `cur`: `none` (infinite) when the
frame has fewer than `k` recorded accesses, else the gap between `cur` and the
k-th most recent access (the queue head). -/
def kDistance (k cur : Nat) (p : LRUKRecord) : Option Nat :=
  if p.que.length < k then none else some (cur - p.que.headD 0)

/-- `d₁` is at least `d₂` in the order where `none` is infinity. -/
def kDistGE : Option Nat → Option Nat → Prop
  | none, _ => True
  | some _, none => False
  | some a, some b => b ≤ a

/-- Well-formed (reachable) replacer state: every record's queue is nonempty,
holds at most `k` timestamps, and all timestamps are at most the current
clock. -/
def LRUKWF (r : LRUKReplacer) : Prop :=
  ∀ p ∈ r.record_list, p.que ≠ [] ∧ p.que.length ≤ r.k ∧
    ∀ t ∈ p.que, t ≤ r.current_timestamp

theorem headD_mem_of_ne_nil {l : List Nat} (h : l ≠ []) : l.headD 0 ∈ l := by
  cases l with
  | nil => exact absurd rfl h
  | cons a t => simp [List.headD]

theorem findLessKAux_spec (k : Nat) :
    ∀ (l : List LRUKRecord) (best : Option Nat) (earliest : Nat),
      (FindLessKAux k l (best, earliest) = (best, earliest) ∧
        ∀ p ∈ l, p.evictable = true → p.que.length < k →
          earliest ≤ p.que.headD 0) ∨
      (∃ p ∈ l, FindLessKAux k l (best, earliest) = (some p.frame_id, p.que.headD 0) ∧
        p.evictable = true ∧ p.que.length < k ∧ p.que.headD 0 < earliest ∧
        ∀ q ∈ l, q.evictable = true → q.que.length < k →
          p.que.headD 0 ≤ q.que.headD 0) := by
  intro l
  induction l with
  | nil => intro best earliest; left; exact ⟨rfl, by simp⟩
  | cons p rest ih =>
      intro best earliest
      by_cases hc : p.evictable = true ∧ p.que.length < k ∧ p.que.headD 0 < earliest
      · have hstep : FindLessKAux k (p :: rest) (best, earliest)
            = FindLessKAux k rest (some p.frame_id, p.que.headD 0) := by
          simp only [FindLessKAux]
          exact if_pos hc
        rcases ih (some p.frame_id) (p.que.headD 0) with ⟨heq, hmin⟩ | ⟨p', hp', heq, he', hl', hlt', hmin⟩
        · right
          refine ⟨p, List.mem_cons_self p rest, ?_, hc.1, hc.2.1, hc.2.2, ?_⟩
          · rw [hstep, heq]
          · intro q hq hqe hql
            rcases List.mem_cons.mp hq with rfl | hq
            · exact le_rfl
            · exact hmin q hq hqe hql
        · right
          refine ⟨p', List.mem_cons_of_mem p hp', by rw [hstep, heq], he', hl', lt_trans hlt' hc.2.2, ?_⟩
          intro q hq hqe hql
          rcases List.mem_cons.mp hq with rfl | hq
          · exact le_of_lt hlt'
          · exact hmin q hq hqe hql
      · have hstep : FindLessKAux k (p :: rest) (best, earliest)
            = FindLessKAux k rest (best, earliest) := by
          simp only [FindLessKAux]
          exact if_neg hc
        rcases ih best earliest with ⟨heq, hmin⟩ | ⟨p', hp', heq, he', hl', hlt', hmin⟩
        · left
          refine ⟨by rw [hstep, heq], ?_⟩
          intro q hq hqe hql
          rcases List.mem_cons.mp hq with rfl | hq
          · have hnlt : ¬ (q.que.headD 0 < earliest) := fun hlt => hc ⟨hqe, hql, hlt⟩
            omega
          · exact hmin q hq hqe hql
        · right
          refine ⟨p', List.mem_cons_of_mem p hp', by rw [hstep, heq], he', hl', hlt', ?_⟩
          intro q hq hqe hql
          rcases List.mem_cons.mp hq with rfl | hq
          · by_cases hqlt : q.que.headD 0 < earliest
            · exact absurd ⟨hqe, hql, hqlt⟩ hc
            · omega
          · exact hmin q hq hqe hql

theorem findEqualKAux_spec (k : Nat) :
    ∀ (l : List LRUKRecord) (best : Option Nat) (earliest : Nat),
      (FindEqualKAux k l (best, earliest) = (best, earliest) ∧
        ∀ p ∈ l, p.evictable = true → p.que.length = k →
          earliest ≤ p.que.headD 0) ∨
      (∃ p ∈ l, FindEqualKAux k l (best, earliest) = (some p.frame_id, p.que.headD 0) ∧
        p.evictable = true ∧ p.que.length = k ∧ p.que.headD 0 < earliest ∧
        ∀ q ∈ l, q.evictable = true → q.que.length = k →
          p.que.headD 0 ≤ q.que.headD 0) := by
  intro l
  induction l with
  | nil => intro best earliest; left; exact ⟨rfl, by simp⟩
  | cons p rest ih =>
      intro best earliest
      by_cases hc : p.evictable = true ∧ p.que.length = k ∧ p.que.headD 0 < earliest
      · have hstep : FindEqualKAux k (p :: rest) (best, earliest)
            = FindEqualKAux k rest (some p.frame_id, p.que.headD 0) := by
          simp only [FindEqualKAux]
          exact if_pos hc
        rcases ih (some p.frame_id) (p.que.headD 0) with ⟨heq, hmin⟩ | ⟨p', hp', heq, he', hl', hlt', hmin⟩
        · right
          refine ⟨p, List.mem_cons_self p rest, ?_, hc.1, hc.2.1, hc.2.2, ?_⟩
          · rw [hstep, heq]
          · intro q hq hqe hql
            rcases List.mem_cons.mp hq with rfl | hq
            · exact le_rfl
            · exact hmin q hq hqe hql
        · right
          refine ⟨p', List.mem_cons_of_mem p hp', by rw [hstep, heq], he', hl', lt_trans hlt' hc.2.2, ?_⟩
          intro q hq hqe hql
          rcases List.mem_cons.mp hq with rfl | hq
          · exact le_of_lt hlt'
          · exact hmin q hq hqe hql
      · have hstep : FindEqualKAux k (p :: rest) (best, earliest)
            = FindEqualKAux k rest (best, earliest) := by
          simp only [FindEqualKAux]
          exact if_neg hc
        rcases ih best earliest with ⟨heq, hmin⟩ | ⟨p', hp', heq, he', hl', hlt', hmin⟩
        · left
          refine ⟨by rw [hstep, heq], ?_⟩
          intro q hq hqe hql
          rcases List.mem_cons.mp hq with rfl | hq
          · have hnlt : ¬ (q.que.headD 0 < earliest) := fun hlt => hc ⟨hqe, hql, hlt⟩
            omega
          · exact hmin q hq hqe hql
        · right
          refine ⟨p', List.mem_cons_of_mem p hp', by rw [hstep, heq], he', hl', hlt', ?_⟩
          intro q hq hqe hql
          rcases List.mem_cons.mp hq with rfl | hq
          · by_cases hqlt : q.que.headD 0 < earliest
            · exact absurd ⟨hqe, hql, hqlt⟩ hc
            · omega
          · exact hmin q hq hqe hql

/-- C4. On a well-formed replacer state, `Evict` reports nothing when no frame
is evictable; otherwise it returns an evictable frame whose backward
K-distance (infinite when fewer than `k` accesses are recorded) is maximal
among all evictable frames, and when the victim is under-sampled its oldest
recorded access is the earliest among all under-sampled evictable frames. -/
theorem lruk_evict_max_backward_k_distance (r : LRUKReplacer) (h : LRUKWF r) :
    ((∀ p ∈ r.record_list, p.evictable = false) → (Evict r).1 = none) ∧
    (∀ p0 ∈ r.record_list, p0.evictable = true →
      ∃ v ∈ r.record_list, (Evict r).1 = some v.frame_id ∧ v.evictable = true ∧
        (∀ p ∈ r.record_list, p.evictable = true →
          kDistGE (kDistance r.k (r.current_timestamp + 1) v)
                  (kDistance r.k (r.current_timestamp + 1) p)) ∧
        (v.que.length < r.k →
          ∀ p ∈ r.record_list, p.evictable = true → p.que.length < r.k →
            v.que.headD 0 ≤ p.que.headD 0)) := by
  have hfront : ∀ p ∈ r.record_list, p.que.headD 0 < r.current_timestamp + 1 := by
    intro p hp
    have := (h p hp).2.2 _ (headD_mem_of_ne_nil (h p hp).1)
    omega
  constructor
  · intro hnone
    rcases findLessKAux_spec r.k r.record_list none (r.current_timestamp + 1)
      with ⟨heq1, _⟩ | ⟨p', hp', _, he', _⟩
    · rcases findEqualKAux_spec r.k r.record_list none (r.current_timestamp + 1)
        with ⟨heq2, _⟩ | ⟨q', hq', _, he2', _⟩
      · simp only [Evict, FindLessK, FindEqualK, heq1, heq2]
      · exact absurd he2' (by simp [hnone q' hq'])
    · exact absurd he' (by simp [hnone p' hp'])
  · intro p0 hp0 hep0
    rcases findLessKAux_spec r.k r.record_list none (r.current_timestamp + 1)
      with ⟨heq1, hbound1⟩ | ⟨v, hv, heq1, hev, hlv, _, hmin1⟩
    · -- no under-sampled evictable frame exists
      have hfull : ∀ p ∈ r.record_list, p.evictable = true → p.que.length = r.k := by
        intro p hp hpe
        have hle := (h p hp).2.1
        by_contra hne
        have hlt : p.que.length < r.k := by omega
        have := hbound1 p hp hpe hlt
        have := hfront p hp
        omega
      rcases findEqualKAux_spec r.k r.record_list none (r.current_timestamp + 1)
        with ⟨_, hbound2⟩ | ⟨v, hv, heq2, hev, hlv, _, hmin2⟩
      · have := hbound2 p0 hp0 hep0 (hfull p0 hp0 hep0)
        have := hfront p0 hp0
        omega
      · refine ⟨v, hv, ?_, hev, ?_, ?_⟩
        · simp only [Evict, FindLessK, FindEqualK, heq1, heq2]
        · intro p hp hpe
          have hpk := hfull p hp hpe
          simp only [kDistance, hlv, hpk, lt_irrefl, if_neg (lt_irrefl r.k), kDistGE]
          exact Nat.sub_le_sub_left (hmin2 p hp hpe hpk) _
        · intro hcontra
          rw [hlv] at hcontra
          omega
    · refine ⟨v, hv, ?_, hev, ?_, fun _ => hmin1⟩
      · simp only [Evict, FindLessK, FindEqualK, heq1]
      · intro p hp hpe
        simp only [kDistance, if_pos hlv, kDistGE]

/-- The replacer state of the specification's LRU-K scenario: `k = 2`, access
sequence 1,2,3,4,1,2,3 (timestamps 1..7), every frame evictable.  Records sit
newest-first-created, as `RecordAccess` builds them. -/
def lrukScenario : LRUKReplacer :=
  ⟨2, 7, 4,
   [⟨4, true, [4]⟩, ⟨3, true, [3, 7]⟩, ⟨2, true, [2, 6]⟩, ⟨1, true, [1, 5]⟩]⟩

/-- Witness for C4: on the specification's scenario the victim is frame 4,
the only frame with fewer than `k` accesses. -/
theorem lruk_evict_max_backward_k_distance_witness :
    (Evict lrukScenario).1 = some 4 ∧
    ∃ v ∈ lrukScenario.record_list,
      (Evict lrukScenario).1 = some v.frame_id ∧ v.evictable = true ∧
      (∀ p ∈ lrukScenario.record_list, p.evictable = true →
        kDistGE (kDistance lrukScenario.k (lrukScenario.current_timestamp + 1) v)
                (kDistance lrukScenario.k (lrukScenario.current_timestamp + 1) p)) ∧
      (v.que.length < lrukScenario.k →
        ∀ p ∈ lrukScenario.record_list, p.evictable = true →
          p.que.length < lrukScenario.k → v.que.headD 0 ≤ p.que.headD 0) :=
  ⟨rfl,
   (lruk_evict_max_backward_k_distance lrukScenario
       (by unfold LRUKWF; decide)).2
     ⟨4, true, [4]⟩ (by decide) rfl⟩

/-! ## Buffer pool manager (src/unnamed/part_007, buffer_pool_manager_instance.cpp) -/

/-- The frame metadata of a buffer pool slot (the fields of `Page` that
`UnpinPgImp` reads and writes). -/
structure Frame where
  page_id : Int
  pin_count : Nat
  is_dirty : Bool
  deriving DecidableEq, Repr

/-- The frame an out-of-range index reads as (never reached under the
well-formedness hypotheses). -/
def defaultFrame : Frame := ⟨0, 0, false⟩

/-- Buffer pool manager state: the frame array `pages_`, the page directory
`page_table_` (page id → frame id, the extendible hash table contents) and
the LRU-K replacer. -/
structure BufferPoolManagerInstance where
  pages : List Frame
  page_table : List (Int × Nat)
  replacer : LRUKReplacer
  deriving DecidableEq, Repr

/-- `page_table_->Find(page_id, frame_id)`: linear lookup in the directory
contents. -/
def pageTableFind (t : List (Int × Nat)) (page_id : Int) : Option Nat :=
  (t.find? fun e => e.1 == page_id).map (·.2)

/-- `BufferPoolManagerInstance::UnpinPgImp` (part_007 lines 98-118): fail when
the page is not resident; set the frame's dirty flag if `is_dirty` is passed;
fail when the pin count is already zero; otherwise decrement the pin count and
mark the frame evictable exactly when it drops to zero. -/
def UnpinPgImp (bpm : BufferPoolManagerInstance) (page_id : Int)
    (is_dirty : Bool) : Bool × BufferPoolManagerInstance :=
  match pageTableFind bpm.page_table page_id with
  | none => (false, bpm)
  | some frame_id =>
      let f0 := bpm.pages.getD frame_id defaultFrame
      let bpm :=
        if is_dirty then
          { bpm with pages := bpm.pages.set frame_id { f0 with is_dirty := is_dirty } }
        else bpm
      let f1 := bpm.pages.getD frame_id defaultFrame
      if f1.pin_count = 0 then (false, bpm)
      else
        let f2 := { f1 with pin_count := f1.pin_count - 1 }
        let bpm := { bpm with pages := bpm.pages.set frame_id f2 }
        if f2.pin_count = 0 then
          (true, { bpm with replacer := SetEvictable bpm.replacer frame_id true })
        else (true, bpm)

/-- The evictable flag the replacer records for `frame_id`, if any. -/
def evictableFlag (r : LRUKReplacer) (frame_id : Nat) : Option Bool :=
  (r.record_list.find? fun p => p.frame_id == frame_id).map (·.evictable)

theorem getD_set_self {α : Type} :
    ∀ (l : List α) (i : Nat) (a d : α), i < l.length → (l.set i a).getD i d = a
  | [], i, _, _, h => absurd h (by simp)
  | _ :: _, 0, _, _, _ => rfl
  | _ :: t, i + 1, a, d, h => getD_set_self t i a d (by simpa using h)

theorem find?_map_update (fid : Nat) (b : Bool) :
    ∀ l : List LRUKRecord, (l.find? fun p => p.frame_id == fid).isSome →
      ((l.map fun q =>
          if q.frame_id == fid then { q with evictable := b } else q).find?
        fun p => p.frame_id == fid)
        = (l.find? fun p => p.frame_id == fid).map
            fun q => { q with evictable := b } := by
  intro l
  induction l with
  | nil => intro h; simp at h
  | cons q t ih =>
      intro h
      by_cases hq : (q.frame_id == fid) = true
      · have hgq : (if (q.frame_id == fid) = true then { q with evictable := b } else q)
            = { q with evictable := b } := if_pos hq
        rw [List.map_cons, hgq,
          List.find?_cons_of_pos (p := fun r : LRUKRecord => r.frame_id == fid)
            (a := q) _ hq,
          List.find?_cons_of_pos (p := fun r : LRUKRecord => r.frame_id == fid)
            (a := { q with evictable := b }) _ hq,
          Option.map_some']
      · have hgq : (if (q.frame_id == fid) = true then { q with evictable := b } else q)
            = q := if_neg hq
        have hrest : (t.find? fun p => p.frame_id == fid).isSome := by
          rw [List.find?_cons_of_neg (p := fun r : LRUKRecord => r.frame_id == fid) _ hq] at h
          exact h
        rw [List.map_cons, hgq,
          List.find?_cons_of_neg (p := fun r : LRUKRecord => r.frame_id == fid) _ hq,
          List.find?_cons_of_neg (p := fun r : LRUKRecord => r.frame_id == fid) _ hq]
        exact ih hrest

theorem setEvictable_flag (r : LRUKReplacer) (fid : Nat) (b : Bool)
    (h : (evictableFlag r fid).isSome) :
    evictableFlag (SetEvictable r fid b) fid = some b := by
  unfold evictableFlag at h
  cases hfind : r.record_list.find? (fun p => p.frame_id == fid) with
  | none => rw [hfind] at h; simp at h
  | some p =>
      unfold SetEvictable evictableFlag
      rw [hfind]
      show ((r.record_list.map fun q =>
          if q.frame_id == fid then { q with evictable := b } else q).find?
        fun p => p.frame_id == fid).map (·.evictable) = some b
      rw [find?_map_update fid b r.record_list (by rw [hfind]; rfl), hfind]
      rfl

theorem unpin_run_false (bpm : BufferPoolManagerInstance) (pid : Int) (fid : Nat)
    (hf : pageTableFind bpm.page_table pid = some fid) :
    UnpinPgImp bpm pid false =
      if (bpm.pages.getD fid defaultFrame).pin_count = 0 then (false, bpm)
      else if (bpm.pages.getD fid defaultFrame).pin_count - 1 = 0 then
        (true, { bpm with
          pages := bpm.pages.set fid
            { bpm.pages.getD fid defaultFrame with
              pin_count := (bpm.pages.getD fid defaultFrame).pin_count - 1 },
          replacer := SetEvictable bpm.replacer fid true })
      else
        (true, { bpm with
          pages := bpm.pages.set fid
            { bpm.pages.getD fid defaultFrame with
              pin_count := (bpm.pages.getD fid defaultFrame).pin_count - 1 } }) := by
  unfold UnpinPgImp
  rw [hf]
  rfl

theorem unpin_run_true (bpm : BufferPoolManagerInstance) (pid : Int) (fid : Nat)
    (hf : pageTableFind bpm.page_table pid = some fid)
    (hlen : fid < bpm.pages.length) :
    UnpinPgImp bpm pid true =
      (if (bpm.pages.getD fid defaultFrame).pin_count = 0 then
        (false, { bpm with
          pages := bpm.pages.set fid
            { bpm.pages.getD fid defaultFrame with is_dirty := true } })
      else if (bpm.pages.getD fid defaultFrame).pin_count - 1 = 0 then
        (true, { bpm with
          pages := bpm.pages.set fid
            { bpm.pages.getD fid defaultFrame with
              pin_count := (bpm.pages.getD fid defaultFrame).pin_count - 1,
              is_dirty := true },
          replacer := SetEvictable bpm.replacer fid true })
      else
        (true, { bpm with
          pages := bpm.pages.set fid
            { bpm.pages.getD fid defaultFrame with
              pin_count := (bpm.pages.getD fid defaultFrame).pin_count - 1,
              is_dirty := true } })) := by
  unfold UnpinPgImp
  rw [hf]
  show (let f0 := bpm.pages.getD fid defaultFrame
        let bpm1 : BufferPoolManagerInstance :=
          { bpm with pages := bpm.pages.set fid { f0 with is_dirty := true } }
        let f1 := bpm1.pages.getD fid defaultFrame
        if f1.pin_count = 0 then (false, bpm1)
        else
          let f2 := { f1 with pin_count := f1.pin_count - 1 }
          let bpm2 := { bpm1 with pages := bpm1.pages.set fid f2 }
          if f2.pin_count = 0 then
            (true, { bpm2 with replacer := SetEvictable bpm2.replacer fid true })
          else (true, bpm2)) = _
  simp only [getD_set_self _ _ _ _ hlen, List.set_set]

/-- C6. `UnpinPgImp` returns false exactly when the page is not resident or
its pin count is already zero; on success it decrements the pin count,
or-accumulates the dirty argument into the frame's dirty flag, marks the frame
evictable precisely when the new pin count drops to zero (and otherwise leaves
the replacer untouched), and returns true. -/
theorem unpinPage_contract (bpm : BufferPoolManagerInstance) (page_id : Int)
    (is_dirty : Bool)
    (hWF : ∀ fid, pageTableFind bpm.page_table page_id = some fid →
      fid < bpm.pages.length ∧ (evictableFlag bpm.replacer fid).isSome) :
    ((UnpinPgImp bpm page_id is_dirty).1 = false ↔
      pageTableFind bpm.page_table page_id = none ∨
      ∃ fid, pageTableFind bpm.page_table page_id = some fid ∧
        (bpm.pages.getD fid defaultFrame).pin_count = 0) ∧
    (∀ fid, pageTableFind bpm.page_table page_id = some fid →
      (bpm.pages.getD fid defaultFrame).pin_count ≠ 0 →
      (UnpinPgImp bpm page_id is_dirty).1 = true ∧
      ((UnpinPgImp bpm page_id is_dirty).2.pages.getD fid defaultFrame).pin_count
        = (bpm.pages.getD fid defaultFrame).pin_count - 1 ∧
      ((UnpinPgImp bpm page_id is_dirty).2.pages.getD fid defaultFrame).is_dirty
        = ((bpm.pages.getD fid defaultFrame).is_dirty || is_dirty) ∧
      ((bpm.pages.getD fid defaultFrame).pin_count - 1 = 0 →
        evictableFlag (UnpinPgImp bpm page_id is_dirty).2.replacer fid = some true) ∧
      ((bpm.pages.getD fid defaultFrame).pin_count - 1 ≠ 0 →
        (UnpinPgImp bpm page_id is_dirty).2.replacer = bpm.replacer)) := by
  by_cases hf : (pageTableFind bpm.page_table page_id).isSome
  case neg =>
    have hfn : pageTableFind bpm.page_table page_id = none := by
      cases h : pageTableFind bpm.page_table page_id with
      | none => rfl
      | some v => rw [h] at hf; simp at hf
    have hrun : UnpinPgImp bpm page_id is_dirty = (false, bpm) := by
      unfold UnpinPgImp
      rw [hfn]
    constructor
    · rw [hrun]
      simp [hfn]
    · intro fid hfid
      rw [hfn] at hfid
      exact absurd hfid (by simp)
  case pos =>
    obtain ⟨fid, hfs⟩ := Option.isSome_iff_exists.mp hf
    obtain ⟨hlen, hflag⟩ := hWF fid hfs
    cases is_dirty with
    | false =>
        rw [unpin_run_false bpm page_id fid hfs] at *
        by_cases hpin : (bpm.pages.getD fid defaultFrame).pin_count = 0
        · rw [if_pos hpin]
          constructor
          · simp only [true_iff]
            exact Or.inr ⟨fid, hfs, hpin⟩
          · intro fid' hfid' hpin'
            rw [hfs] at hfid'
            cases hfid'
            exact absurd hpin hpin'
        · rw [if_neg hpin]
          by_cases hz : (bpm.pages.getD fid defaultFrame).pin_count - 1 = 0
          · rw [if_pos hz]
            constructor
            · simp only [Bool.true_eq_false, false_iff]
              push_neg
              refine ⟨by simp [hfs], ?_⟩
              intro fid' hfid'
              rw [hfs] at hfid'
              cases hfid'
              exact hpin
            · intro fid' hfid' _
              rw [hfs] at hfid'
              cases hfid'
              refine ⟨rfl, ?_, ?_, ?_, ?_⟩
              · rw [getD_set_self _ _ _ _ hlen]
              · rw [getD_set_self _ _ _ _ hlen]
                simp
              · intro _
                exact setEvictable_flag bpm.replacer fid true hflag
              · intro hz'
                exact absurd hz hz'
          · rw [if_neg hz]
            constructor
            · simp only [Bool.true_eq_false, false_iff]
              push_neg
              refine ⟨by simp [hfs], ?_⟩
              intro fid' hfid'
              rw [hfs] at hfid'
              cases hfid'
              exact hpin
            · intro fid' hfid' _
              rw [hfs] at hfid'
              cases hfid'
              refine ⟨rfl, ?_, ?_, ?_, ?_⟩
              · rw [getD_set_self _ _ _ _ hlen]
              · rw [getD_set_self _ _ _ _ hlen]
                simp
              · intro hz'
                exact absurd hz' hz
              · intro _
                rfl
    | true =>
        rw [unpin_run_true bpm page_id fid hfs hlen] at *
        by_cases hpin : (bpm.pages.getD fid defaultFrame).pin_count = 0
        · rw [if_pos hpin]
          constructor
          · simp only [true_iff]
            exact Or.inr ⟨fid, hfs, hpin⟩
          · intro fid' hfid' hpin'
            rw [hfs] at hfid'
            cases hfid'
            exact absurd hpin hpin'
        · rw [if_neg hpin]
          by_cases hz : (bpm.pages.getD fid defaultFrame).pin_count - 1 = 0
          · rw [if_pos hz]
            constructor
            · simp only [Bool.true_eq_false, false_iff]
              push_neg
              refine ⟨by simp [hfs], ?_⟩
              intro fid' hfid'
              rw [hfs] at hfid'
              cases hfid'
              exact hpin
            · intro fid' hfid' _
              rw [hfs] at hfid'
              cases hfid'
              refine ⟨rfl, ?_, ?_, ?_, ?_⟩
              · rw [getD_set_self _ _ _ _ hlen]
              · rw [getD_set_self _ _ _ _ hlen]
                simp
              · intro _
                exact setEvictable_flag bpm.replacer fid true hflag
              · intro hz'
                exact absurd hz hz'
          · rw [if_neg hz]
            constructor
            · simp only [Bool.true_eq_false, false_iff]
              push_neg
              refine ⟨by simp [hfs], ?_⟩
              intro fid' hfid'
              rw [hfs] at hfid'
              cases hfid'
              exact hpin
            · intro fid' hfid' _
              rw [hfs] at hfid'
              cases hfid'
              refine ⟨rfl, ?_, ?_, ?_, ?_⟩
              · rw [getD_set_self _ _ _ _ hlen]
              · rw [getD_set_self _ _ _ _ hlen]
                simp
              · intro hz'
                exact absurd hz' hz
              · intro _
                rfl

/-- A one-frame buffer pool holding page 7 pinned once, clean, with a
replacer record for frame 0. -/
def unpinScenario : BufferPoolManagerInstance :=
  ⟨[⟨7, 1, false⟩], [(7, 0)], ⟨2, 3, 0, [⟨0, false, [1]⟩]⟩⟩

/-- Witness for C6: unpinning page 7 dirty succeeds, drops the pin count to
zero, sets the dirty flag and marks frame 0 evictable. -/
theorem unpinPage_contract_witness :
    (UnpinPgImp unpinScenario 7 true).1 = true ∧
    ((UnpinPgImp unpinScenario 7 true).2.pages.getD 0 defaultFrame).pin_count
      = (unpinScenario.pages.getD 0 defaultFrame).pin_count - 1 ∧
    ((UnpinPgImp unpinScenario 7 true).2.pages.getD 0 defaultFrame).is_dirty
      = ((unpinScenario.pages.getD 0 defaultFrame).is_dirty || true) ∧
    ((unpinScenario.pages.getD 0 defaultFrame).pin_count - 1 = 0 →
      evictableFlag (UnpinPgImp unpinScenario 7 true).2.replacer 0 = some true) ∧
    ((unpinScenario.pages.getD 0 defaultFrame).pin_count - 1 ≠ 0 →
      (UnpinPgImp unpinScenario 7 true).2.replacer = unpinScenario.replacer) :=
  (unpinPage_contract unpinScenario 7 true
      (by
        intro fid hfid
        rw [show pageTableFind unpinScenario.page_table 7 = some 0 from by decide]
          at hfid
        injection hfid with h
        subst h
        exact ⟨by decide, by decide⟩)).2
    0 (by decide) (by decide)

/-- C10. On a resident page whose pin count is already zero, `UnpinPgImp` with
`is_dirty = true` returns false, yet the frame's dirty flag has been set
before the failure was detected: the failing call mutates the pool state. -/
theorem unpin_zero_pin_still_sets_dirty (bpm : BufferPoolManagerInstance)
    (page_id : Int) (fid : Nat)
    (hf : pageTableFind bpm.page_table page_id = some fid)
    (hlen : fid < bpm.pages.length)
    (hpin : (bpm.pages.getD fid defaultFrame).pin_count = 0) :
    (UnpinPgImp bpm page_id true).1 = false ∧
    ((UnpinPgImp bpm page_id true).2.pages.getD fid defaultFrame).is_dirty
      = true := by
  rw [unpin_run_true bpm page_id fid hf hlen, if_pos hpin]
  exact ⟨rfl, by rw [getD_set_self _ _ _ _ hlen]⟩

/-- A one-frame buffer pool holding page 9 resident, unpinned and clean. -/
def unpinZeroScenario : BufferPoolManagerInstance :=
  ⟨[⟨9, 0, false⟩], [(9, 0)], ⟨2, 1, 1, [⟨0, true, [1]⟩]⟩⟩

/-- Witness for C10: the failing unpin of the clean page 9 flips the frame's
dirty flag, so the pool state changed. -/
theorem unpin_zero_pin_still_sets_dirty_witness :
    ((UnpinPgImp unpinZeroScenario 9 true).1 = false ∧
     ((UnpinPgImp unpinZeroScenario 9 true).2.pages.getD 0 defaultFrame).is_dirty
       = true) ∧
    (UnpinPgImp unpinZeroScenario 9 true).2.pages ≠ unpinZeroScenario.pages :=
  ⟨unpin_zero_pin_still_sets_dirty unpinZeroScenario 9 0 (by decide) (by decide)
     (by decide),
   by decide⟩

/-! ## B+ tree index (src/storage/index/b_plus_tree.cpp)

Keys and record ids are embedded as `Int`; the injected `GenericComparator`
is the standard three-way comparison `cmp`. -/

/-- The injected comparator: `-1` for less, `0` for equal, `1` for greater. -/
def cmp (a b : Int) : Int :=
  if a < b then -1 else if a = b then 0 else 1

/-- The backward scan of `BPlusTree::InsertInLeaf` (b_plus_tree.cpp lines
420-429): walking from entry `size-1` down, the first key `≤ key` fixes the
insertion slot right after it; `0` when every key is greater. -/
def insertIndexGo (es : List (Int × Int)) (key : Int) : Nat → Nat
  | 0 => 0
  | i + 1 => if cmp (es.getD i (0, 0)).1 key ≤ 0 then i + 1 else insertIndexGo es key i

/-- `BPlusTree::InsertInLeaf` (lines 418-438) as a list operation: place the
pair at the slot the backward scan selects and shift the tail right. -/
def InsertInLeaf (es : List (Int × Int)) (key value : Int) : List (Int × Int) :=
  let index := insertIndexGo es key es.length
  es.take index ++ (key, value) :: es.drop index

/-- Outcome of the leaf split of `BPlusTree::Insert` (lines 248-290). -/
structure LeafSplit where
  left : List (Int × Int)
  right : List (Int × Int)
  leftNext : Int
  rightNext : Int
  sep : Int
  deriving DecidableEq, Repr

/-- The split path of `BPlusTree::Insert` (lines 248-290): copy all entries
plus the new pair into the scratch leaf `temp`, give the first
`(leaf_max_size + 1) / 2` entries to the left leaf and the next
`leaf_max_size - left_size` to the fresh right leaf, splice the right leaf
between the left leaf and its old successor, and pass the right leaf's first
key to `InsertInParent`. -/
def splitLeaf (leaf_max_size : Nat) (es : List (Int × Int))
    (next right_leaf_node_id : Int) (key value : Int) : LeafSplit :=
  let temp := InsertInLeaf es key value
  let left_size := (leaf_max_size + 1) / 2
  let right_size := leaf_max_size - left_size
  { left := temp.take left_size
    right := (temp.drop left_size).take right_size
    leftNext := right_leaf_node_id
    rightNext := next
    sep := ((temp.drop left_size).headD (0, 0)).1 }

theorem insertIndexGo_le (es : List (Int × Int)) (key : Int) :
    ∀ n, insertIndexGo es key n ≤ n := by
  intro n
  induction n with
  | zero => simp [insertIndexGo]
  | succ i ih =>
      unfold insertIndexGo
      by_cases hc : cmp (es.getD i (0, 0)).1 key ≤ 0
      · rw [if_pos hc]
      · rw [if_neg hc]
        omega

theorem insertInLeaf_length (es : List (Int × Int)) (key value : Int) :
    (InsertInLeaf es key value).length = es.length + 1 := by
  unfold InsertInLeaf
  have h := insertIndexGo_le es key es.length
  simp [List.length_take]
  omega

/-- C2 (counterexample). With `leaf_max_size = 4` and a leaf holding the
3 = max−1 entries 1,2,3, inserting key 4 leaves 2 entries on the left leaf,
not the ⌈(max+1)/2⌉ = 3 the claim states. -/
theorem leafSplit_left_size_counterexample :
    (splitLeaf 4 [(1, 1), (2, 2), (3, 3)] (-1) 7 4 4).left.length = 2 ∧
    (4 + 1 + 1) / 2 = 3 ∧ (2 : Nat) ≠ 3 := by
  decide

/-- C2 (amended). Inserting into a leaf that already holds max−1 entries
splits it: the scratch buffer gathers all max−1 entries plus the new one,
the left leaf ends with exactly ⌊(max+1)/2⌋ = ⌈max/2⌉ entries (not
⌈(max+1)/2⌉), the right leaf gets the remaining ones, the right leaf is
spliced into the next-leaf chain, and the right leaf's first key is the
separator passed to `insert_in_parent`. -/
theorem leafSplit_distribution (leaf_max_size : Nat) (es : List (Int × Int))
    (next rightId : Int) (key value : Int)
    (hmax : 2 ≤ leaf_max_size) (hlen : es.length = leaf_max_size - 1) :
    (InsertInLeaf es key value).length = leaf_max_size ∧
    (splitLeaf leaf_max_size es next rightId key value).left.length
      = (leaf_max_size + 1) / 2 ∧
    (splitLeaf leaf_max_size es next rightId key value).right.length
      = leaf_max_size - (leaf_max_size + 1) / 2 ∧
    (splitLeaf leaf_max_size es next rightId key value).left
        ++ (splitLeaf leaf_max_size es next rightId key value).right
      = InsertInLeaf es key value ∧
    (splitLeaf leaf_max_size es next rightId key value).leftNext = rightId ∧
    (splitLeaf leaf_max_size es next rightId key value).rightNext = next ∧
    (splitLeaf leaf_max_size es next rightId key value).sep
      = (((splitLeaf leaf_max_size es next rightId key value).right.headD (0, 0)).1) := by
  have htemp : (InsertInLeaf es key value).length = leaf_max_size := by
    rw [insertInLeaf_length, hlen]
    omega
  have hls : (leaf_max_size + 1) / 2 ≤ leaf_max_size := by omega
  refine ⟨htemp, ?_, ?_, ?_, rfl, rfl, ?_⟩
  · simp [splitLeaf, List.length_take, htemp]
    omega
  · simp [splitLeaf, List.length_take, htemp]
  · have hdrop :
        ((InsertInLeaf es key value).drop ((leaf_max_size + 1) / 2)).take
            (leaf_max_size - (leaf_max_size + 1) / 2)
          = (InsertInLeaf es key value).drop ((leaf_max_size + 1) / 2) := by
      apply List.take_of_length_le
      simp [htemp]
    simp only [splitLeaf, hdrop]
    exact List.take_append_drop _ _
  · have hdrop :
        ((InsertInLeaf es key value).drop ((leaf_max_size + 1) / 2)).take
            (leaf_max_size - (leaf_max_size + 1) / 2)
          = (InsertInLeaf es key value).drop ((leaf_max_size + 1) / 2) := by
      apply List.take_of_length_le
      simp [htemp]
    simp only [splitLeaf, hdrop]

/-- Witness for C2 (amended): the 4-max split of the leaf 1,2,3 under
insertion of 4. -/
theorem leafSplit_distribution_witness :
    (InsertInLeaf [(1, 1), (2, 2), (3, 3)] 4 4).length = 4 ∧
    (splitLeaf 4 [(1, 1), (2, 2), (3, 3)] (-1) 7 4 4).left.length = (4 + 1) / 2 ∧
    (splitLeaf 4 [(1, 1), (2, 2), (3, 3)] (-1) 7 4 4).right.length
      = 4 - (4 + 1) / 2 ∧
    (splitLeaf 4 [(1, 1), (2, 2), (3, 3)] (-1) 7 4 4).left
        ++ (splitLeaf 4 [(1, 1), (2, 2), (3, 3)] (-1) 7 4 4).right
      = InsertInLeaf [(1, 1), (2, 2), (3, 3)] 4 4 ∧
    (splitLeaf 4 [(1, 1), (2, 2), (3, 3)] (-1) 7 4 4).leftNext = 7 ∧
    (splitLeaf 4 [(1, 1), (2, 2), (3, 3)] (-1) 7 4 4).rightNext = -1 ∧
    (splitLeaf 4 [(1, 1), (2, 2), (3, 3)] (-1) 7 4 4).sep
      = (((splitLeaf 4 [(1, 1), (2, 2), (3, 3)] (-1) 7 4 4).right.headD (0, 0)).1) :=
  leafSplit_distribution 4 [(1, 1), (2, 2), (3, 3)] (-1) 7 4 4
    (by decide) (by decide)

/-! ### The tree as a functional structure

A node is a leaf of (key, value) pairs, or an internal node of (key, child)
pairs whose slot-0 key is unused, exactly the page layouts of
`b_plus_tree_leaf_page` / `b_plus_tree_internal_page`.  Page ids, parent
pointers and next-leaf ids are bookkeeping for the buffer pool; the
functional tree keeps the entry arrays and the child structure. -/
inductive BPTree where
  | leaf (entries : List (Int × Int))
  | internal (entries : List (Int × BPTree))
  deriving Repr

mutual

/-- The (key, value) pairs stored at the leaves, in left-to-right order. -/
def BPTree.toList : BPTree → List (Int × Int)
  | .leaf es => es
  | .internal es => toListL es

def toListL : List (Int × BPTree) → List (Int × Int)
  | [] => []
  | e :: rest => e.2.toList ++ toListL rest

end

mutual

def beqBPTree : BPTree → BPTree → Bool
  | .leaf es, .leaf es' => es == es'
  | .internal es, .internal es' => beqBPTreeL es es'
  | _, _ => false

def beqBPTreeL : List (Int × BPTree) → List (Int × BPTree) → Bool
  | [], [] => true
  | e :: rest, e' :: rest' =>
      e.1 == e'.1 && beqBPTree e.2 e'.2 && beqBPTreeL rest rest'
  | _, _ => false

end

mutual

theorem beqBPTree_refl : ∀ t : BPTree, beqBPTree t t = true
  | .leaf es => by simp [beqBPTree]
  | .internal es => by simp [beqBPTree, beqBPTreeL_refl es]

theorem beqBPTreeL_refl : ∀ l : List (Int × BPTree), beqBPTreeL l l = true
  | [] => by simp [beqBPTreeL]
  | e :: rest => by
      simp [beqBPTreeL, beqBPTree_refl e.2, beqBPTreeL_refl rest]

end

mutual

theorem eq_of_beqBPTree : ∀ t t' : BPTree, beqBPTree t t' = true → t = t'
  | .leaf es, .leaf es', h => by
      simp only [beqBPTree, beq_iff_eq] at h
      rw [h]
  | .leaf _, .internal _, h => by simp [beqBPTree] at h
  | .internal _, .leaf _, h => by simp [beqBPTree] at h
  | .internal es, .internal es', h => by
      simp only [beqBPTree] at h
      rw [eq_of_beqBPTreeL es es' h]

theorem eq_of_beqBPTreeL : ∀ l l' : List (Int × BPTree), beqBPTreeL l l' = true → l = l'
  | [], [], _ => rfl
  | [], _ :: _, h => by simp [beqBPTreeL] at h
  | _ :: _, [], h => by simp [beqBPTreeL] at h
  | e :: rest, e' :: rest', h => by
      simp only [beqBPTreeL, Bool.and_eq_true, beq_iff_eq] at h
      have h1 : e = e' := by
        obtain ⟨⟨hk, hc⟩, _⟩ := h
        cases e
        cases e'
        simp only [Prod.mk.injEq]
        exact ⟨hk, eq_of_beqBPTree _ _ hc⟩
      rw [h1, eq_of_beqBPTreeL rest rest' h.2]

end

instance : DecidableEq BPTree := fun t t' =>
  if h : beqBPTree t t' = true then
    isTrue (eq_of_beqBPTree t t' h)
  else
    isFalse (fun he => h (he ▸ beqBPTree_refl t))

/-- The child-selection loop of `BPlusTree::GetLeafPage` (lines 139-153),
walking the entries from slot 1 with their indices: the first key `≥ key`
decides (its own child on equality, the previous child otherwise); when every
key is smaller the last child is taken. -/
def childScanGo (key : Int) : Nat → List (Int × BPTree) → Nat
  | i, [] => i - 1
  | i, (k, _) :: rest =>
      if cmp k key = -1 then childScanGo key (i + 1) rest
      else if cmp k key = 0 then i
      else i - 1

/-- Index of the child `GetLeafPage` descends into. -/
def childIndex (es : List (Int × BPTree)) (key : Int) : Nat :=
  childScanGo key 1 (es.drop 1)

/-- Result of an insertion into a subtree: duplicate found, node updated in
place, or node split into (left, separator, right) handed to
`InsertInParent`. -/
inductive InsRes where
  | dup
  | one (t : BPTree)
  | two (l : BPTree) (sep : Int) (r : BPTree)
  deriving Repr

/-- The duplicate scan of `BPlusTree::Insert` (lines 230-236). -/
def containsKeyLeaf (es : List (Int × Int)) (key : Int) : Bool :=
  es.any fun e => cmp e.1 key == 0

/-- `BPlusTree::Insert` below the root together with `InsertInParent`
(lines 202-416), as one descent: at a leaf, refuse duplicates, insert in
place when fewer than `leaf_max_size - 1` entries, else split as in
`splitLeaf`; at an internal node, recurse into the selected child and, on a
child split, place `(sep, right)` right after the left child (the code finds
that slot by scanning for the left child's page id), splitting the internal
node at `(size + 2) / 2` with the promoted key `temp[left_size].first` when
it already holds `internal_max_size` entries. -/
def insertAux (leafMax internalMax : Nat) (key value : Int) : BPTree → InsRes
  | .leaf es =>
      if containsKeyLeaf es key then .dup
      else if es.length < leafMax - 1 then .one (.leaf (InsertInLeaf es key value))
      else
        let temp := InsertInLeaf es key value
        let left_size := (leafMax + 1) / 2
        let right_size := leafMax - left_size
        .two (.leaf (temp.take left_size))
          (((temp.drop left_size).headD (0, 0)).1)
          (.leaf ((temp.drop left_size).take right_size))
  | .internal es =>
      let j := childIndex es key
      match hj : es.get? j with
      | none => .one (.internal es)
      | some (jk, c) =>
          match insertAux leafMax internalMax key value c with
          | .dup => .dup
          | .one c' => .one (.internal (es.set j (jk, c')))
          | .two l sep r =>
              let es' := es.set j (jk, l)
              let temp := es'.take (j + 1) ++ (sep, r) :: es'.drop (j + 1)
              if es.length < internalMax then .one (.internal temp)
              else
                let left_size := (es.length + 2) / 2
                let right_size := es.length + 1 - left_size
                .two (.internal (temp.take left_size))
                  ((temp.getD left_size (0, .leaf [])).1)
                  (.internal ((temp.drop left_size).take right_size))
  termination_by t => sizeOf t
  decreasing_by
    rename_i es
    have h1 : sizeOf (jk, c) < sizeOf es := List.sizeOf_lt_of_mem (List.get?_mem hj)
    simp only [BPTree.internal.sizeOf_spec]
    simp only [Prod.mk.sizeOf_spec] at h1
    omega

/-- `BPlusTree::Insert` at the root (lines 202-226 and 304-324): an empty tree
gets a fresh root leaf first; a split of the old root allocates a new internal
root of size 2 holding (left, sep, right). -/
def Insert (leafMax internalMax : Nat) (key value : Int)
    (root : Option BPTree) : Bool × Option BPTree :=
  let start := root.getD (.leaf [])
  match insertAux leafMax internalMax key value start with
  | .dup => (false, root)
  | .one t => (true, some t)
  | .two l sep r => (true, some (.internal [(0, l), (sep, r)]))

/-- The leaf branch of the removal loop of `BPlusTree::DeleteEntry`
(lines 460-469): drop the first entry whose key matches, shifting the rest
left; no entry, no change. -/
def deleteFromLeaf (es : List (Int × Int)) (key : Int) : List (Int × Int) :=
  match es.findIdx? (fun e => cmp e.1 key == 0) with
  | none => es
  | some i => es.take i ++ es.drop (i + 1)

/-- The internal branch of the removal loop of `BPlusTree::DeleteEntry`
(lines 470-481): the scan starts at slot 1, the slot-0 key being unused. -/
def deleteFromInternal (es : List (Int × BPTree)) (key : Int) :
    List (Int × BPTree) :=
  match (es.drop 1).findIdx? (fun e => cmp e.1 key == 0) with
  | none => es
  | some i => es.take (i + 1) ++ es.drop (i + 2)

/-- Modelled from the spec: `BPlusTreePage::GetMinSize` is not among the
sources; §3 of the spec prescribes at least `⌈max/2⌉` entries for every node
except the root. -/
def minSize (max : Nat) : Nat := (max + 1) / 2

/-- Live entry count of a node (`GetSize`). -/
def nodeSize : BPTree → Nat
  | .leaf es => es.length
  | .internal es => es.length

/-- The minimum entry count of a non-root node, per kind. -/
def nodeMin (leafMax internalMax : Nat) : BPTree → Nat
  | .leaf _ => minSize leafMax
  | .internal _ => minSize internalMax

/-- `SetKeyAt` on an internal node's entry `i`. -/
def setKeyAt (es : List (Int × BPTree)) (i : Nat) (k : Int) :
    List (Int × BPTree) :=
  es.set i (k, (es.getD i (0, .leaf [])).2)

/-- `SetKeyAt(0, k)`: replace the (unused) slot-0 key. -/
def setFirstKey (l : List (Int × BPTree)) (k : Int) : List (Int × BPTree) :=
  match l with
  | [] => []
  | e :: rest => (k, e.2) :: rest

/-- The merge/redistribute tail of `BPlusTree::DeleteEntry` (lines 532-775),
seen from the parent: the underfull child sits at slot `j` of `es`.  The left
sibling is preferred (`flag`), the right one is used when the child is the
parent's leftmost; `k` is the parent separator at `kIndex`.  Merge moves all
entries of the right node into the left one (an internal right node first gets
`k` as its slot-0 key) and deletes `k` from the parent; redistribution moves
one boundary entry across and rewrites the parent separator. -/
def rebalanceChild (leafMax internalMax : Nat) (es : List (Int × BPTree))
    (j : Nat) : List (Int × BPTree) :=
  let sibPos := if j = 0 then 1 else j - 1
  let kIndex := if j = 0 then 1 else j
  let flag := j ≠ 0
  let k := (es.getD kIndex (0, .leaf [])).1
  let node := (es.getD j (0, .leaf [])).2
  let sibling := (es.getD sibPos (0, .leaf [])).2
  match node, sibling with
  | .leaf nes, .leaf ses =>
      if ses.length + nes.length ≤ leafMax - 1 then
        let leftPos := if flag then sibPos else j
        let merged := if flag then ses ++ nes else nes ++ ses
        deleteFromInternal
          (es.set leftPos ((es.getD leftPos (0, .leaf [])).1, .leaf merged)) k
      else if flag then
        let last := ses.getD (ses.length - 1) (0, 0)
        let es1 := es.set sibPos
          ((es.getD sibPos (0, .leaf [])).1, .leaf (ses.take (ses.length - 1)))
        let es2 := es1.set j ((es1.getD j (0, .leaf [])).1, .leaf (last :: nes))
        setKeyAt es2 kIndex last.1
      else
        let first := ses.headD (0, 0)
        let ses' := ses.drop 1
        let es1 := es.set sibPos ((es.getD sibPos (0, .leaf [])).1, .leaf ses')
        let es2 := es1.set j
          ((es1.getD j (0, .leaf [])).1, .leaf (nes ++ [first]))
        setKeyAt es2 kIndex (ses'.headD (0, 0)).1
  | .internal nes, .internal ses =>
      if ses.length + nes.length ≤ internalMax then
        let leftPos := if flag then sibPos else j
        let merged :=
          if flag then ses ++ setFirstKey nes k else nes ++ setFirstKey ses k
        deleteFromInternal
          (es.set leftPos ((es.getD leftPos (0, .leaf [])).1, .internal merged)) k
      else if flag then
        let last := ses.getD (ses.length - 1) (0, .leaf [])
        let es1 := es.set sibPos
          ((es.getD sibPos (0, .leaf [])).1,
           .internal (ses.take (ses.length - 1)))
        let es2 := es1.set j
          ((es1.getD j (0, .leaf [])).1, .internal (last :: setFirstKey nes k))
        setKeyAt es2 kIndex last.1
      else
        let first := ses.headD (0, .leaf [])
        let ses' := ses.drop 1
        let es1 := es.set sibPos ((es.getD sibPos (0, .leaf [])).1, .internal ses')
        let es2 := es1.set j
          ((es1.getD j (0, .leaf [])).1, .internal (nes ++ [(k, first.2)]))
        setKeyAt es2 kIndex (ses'.headD (0, .leaf [])).1
  | _, _ => es

/-- `BPlusTree::Remove`/`DeleteEntry` below the root (lines 444-497 and
532-775) as one descent: delete in the located leaf; on the way back up, a
child that fell below its minimum is merged with or refilled from a sibling
by `rebalanceChild` (the code performs this inside the child's
`DeleteEntry` frame through the latched parent, recursing into
`DeleteEntry(parent, k)` after a merge). -/
def removeAux (leafMax internalMax : Nat) (key : Int) : BPTree → BPTree
  | .leaf es => .leaf (deleteFromLeaf es key)
  | .internal es =>
      let j := childIndex es key
      match hj : es.get? j with
      | none => .internal es
      | some (jk, c) =>
          let c' := removeAux leafMax internalMax key c
          let es' := es.set j (jk, c')
          if nodeMin leafMax internalMax c' ≤ nodeSize c' then .internal es'
          else .internal (rebalanceChild leafMax internalMax es' j)
  termination_by t => sizeOf t
  decreasing_by
    rename_i es
    have h1 : sizeOf (jk, c) < sizeOf es := List.sizeOf_lt_of_mem (List.get?_mem hj)
    simp only [BPTree.internal.sizeOf_spec]
    simp only [Prod.mk.sizeOf_spec] at h1
    omega

/-- `BPlusTree::Remove` at the root (lines 444-454 with the root branch of
`DeleteEntry`, lines 500-529): an empty tree is left alone; a root leaf that
became empty clears the tree; an internal root left with a single child
promotes that child. -/
def Remove (leafMax internalMax : Nat) (key : Int) :
    Option BPTree → Option BPTree
  | none => none
  | some t =>
      match removeAux leafMax internalMax key t with
      | .leaf es => if es.length = 0 then none else some (.leaf es)
      | .internal es =>
          if es.length = 1 then some ((es.getD 0 (0, .leaf [])).2)
          else some (.internal es)

/-! ### Invariants of well-formed trees

`wfB` captures the order invariants of §8 of the specification restricted to
what the descent needs: internal keys from slot 1 strictly ascending, each
separator a lower bound of its own subtree and an upper bound of the one to
its left.  `sizeInvB` captures the occupancy invariant: every non-root node
holds at least its minimum. -/

def boundsOkB : List (Int × BPTree) → Bool
  | [] => true
  | [_] => true
  | e :: e' :: rest =>
      (e.2.toList.all fun x => x.1 < e'.1) &&
      (e'.2.toList.all fun x => e'.1 ≤ x.1) &&
      boundsOkB (e' :: rest)

mutual

def wfB : BPTree → Bool
  | .leaf _ => true
  | .internal es =>
      !es.isEmpty && decide (((es.drop 1).map (·.1)).Pairwise (· < ·)) &&
        boundsOkB es && wfL es

def wfL : List (Int × BPTree) → Bool
  | [] => true
  | e :: rest => wfB e.2 && wfL rest

end

mutual

def sizeInvB (lm im : Nat) : BPTree → Bool
  | .leaf _ => true
  | .internal es => sizeInvL lm im es

def sizeInvL (lm im : Nat) : List (Int × BPTree) → Bool
  | [] => true
  | e :: rest =>
      decide (nodeMin lm im e.2 ≤ nodeSize e.2) && sizeInvB lm im e.2 &&
        sizeInvL lm im rest

end

def rootToList : Option BPTree → List (Int × Int)
  | none => []
  | some t => t.toList

def rootWf : Option BPTree → Bool
  | none => true
  | some t => wfB t

def rootSizeInv (lm im : Nat) : Option BPTree → Bool
  | none => true
  | some t => sizeInvB lm im t

theorem cmp_eq_neg_one_iff (a b : Int) : cmp a b = -1 ↔ a < b := by
  unfold cmp
  split_ifs with h1 h2 <;> simp_all <;> omega

theorem cmp_eq_zero_iff (a b : Int) : cmp a b = 0 ↔ a = b := by
  unfold cmp
  split_ifs with h1 h2 <;> simp_all
  omega

theorem set_get?_eq_self {α : Type} :
    ∀ (l : List α) (i : Nat) (a : α), l.get? i = some a → l.set i a = l
  | [], _, _, h => by simp at h
  | x :: t, 0, a, h => by
      simp only [List.get?] at h
      cases h
      rfl
  | x :: t, i + 1, a, h => by
      simp only [List.get?] at h
      simp [List.set, set_get?_eq_self t i a h]

theorem mem_toListL : ∀ (l : List (Int × BPTree)) (x : Int × Int),
    x ∈ toListL l ↔ ∃ e ∈ l, x ∈ e.2.toList := by
  intro l
  induction l with
  | nil => simp [toListL]
  | cons e rest ih =>
      intro x
      simp only [toListL, List.mem_append, ih, List.mem_cons]
      constructor
      · rintro (hx | ⟨e', he', hx⟩)
        · exact ⟨e, Or.inl rfl, hx⟩
        · exact ⟨e', Or.inr he', hx⟩
      · rintro ⟨e', (rfl | he'), hx⟩
        · exact Or.inl hx
        · exact Or.inr ⟨e', he', hx⟩

theorem wfL_forall : ∀ l : List (Int × BPTree),
    wfL l = true ↔ ∀ e ∈ l, wfB e.2 = true := by
  intro l
  induction l with
  | nil => simp [wfL]
  | cons e rest ih => simp [wfL, ih]

theorem sizeInvL_forall (lm im : Nat) : ∀ l : List (Int × BPTree),
    sizeInvL lm im l = true ↔
      ∀ e ∈ l, nodeMin lm im e.2 ≤ nodeSize e.2 ∧ sizeInvB lm im e.2 = true := by
  intro l
  induction l with
  | nil => simp [sizeInvL]
  | cons e rest ih =>
      simp [sizeInvL, ih]

theorem boundsOkB_adj : ∀ (l : List (Int × BPTree)), boundsOkB l = true →
    ∀ i (h1 : i + 1 < l.length),
      (∀ x ∈ l[i].2.toList, x.1 < l[i + 1].1) ∧
      (∀ x ∈ l[i + 1].2.toList, l[i + 1].1 ≤ x.1) := by
  intro l
  induction l with
  | nil => intro _ i h1; simp at h1
  | cons e rest ih =>
      intro hb i h1
      cases rest with
      | nil => simp at h1
      | cons e' rest' =>
          simp only [boundsOkB, Bool.and_eq_true, List.all_eq_true] at hb
          obtain ⟨⟨hub, hlb⟩, hrest⟩ := hb
          cases i with
          | zero =>
              constructor
              · intro x hx
                simpa using hub x hx
              · intro x hx
                simpa using hlb x hx
          | succ i' =>
              have h1' : i' + 1 < (e' :: rest').length := by
                simpa using h1
              exact ih hrest i' h1'

theorem scango_all_lt (key : Int) :
    ∀ (suf : List (Int × BPTree)) (i : Nat),
      (∀ e ∈ suf, e.1 < key) →
      childScanGo key i suf = i + suf.length - 1 := by
  intro suf
  induction suf with
  | nil => intro i _; simp [childScanGo]
  | cons e rest ih =>
      intro i hall
      obtain ⟨k, c⟩ := e
      have hk : k < key := hall (k, c) (List.mem_cons_self _ _)
      simp only [childScanGo, if_pos ((cmp_eq_neg_one_iff k key).mpr hk)]
      rw [ih (i + 1) fun e he => hall e (List.mem_cons_of_mem _ he)]
      simp

theorem scango_found (key : Int) :
    ∀ (suf : List (Int × BPTree)) (i t : Nat) (ht : t < suf.length),
      (∀ s (hs : s < t), suf[s].1 < key) →
      ¬(suf[t].1 < key) →
      childScanGo key i suf
        = if suf[t].1 = key then i + t else i + t - 1 := by
  intro suf
  induction suf with
  | nil => intro i t ht; simp at ht
  | cons e rest ih =>
      intro i t ht hlt hnot
      obtain ⟨k, c⟩ := e
      cases t with
      | zero =>
          simp only [List.getElem_cons_zero] at hnot ⊢
          have hne : ¬ cmp k key = -1 := by
            rw [cmp_eq_neg_one_iff]
            exact hnot
          by_cases heq : k = key
          · simp only [childScanGo, if_neg hne,
              if_pos ((cmp_eq_zero_iff k key).mpr heq), if_pos heq]
            omega
          · have hnz : ¬ cmp k key = 0 := by
              rw [cmp_eq_zero_iff]
              exact heq
            simp only [childScanGo, if_neg hne, if_neg hnz, if_neg heq]
            omega
      | succ t' =>
          have hk : k < key := by
            have := hlt 0 (Nat.succ_pos t')
            simpa using this
          have ht' : t' < rest.length := by simpa using ht
          have hlt' : ∀ s (hs : s < t'), rest[s].1 < key := by
            intro s hs
            have := hlt (s + 1) (by omega)
            simpa using this
          have hnot' : ¬(rest[t'].1 < key) := by
            simpa using hnot
          simp only [childScanGo, if_pos ((cmp_eq_neg_one_iff k key).mpr hk)]
          rw [ih (i + 1) t' ht' hlt' hnot']
          simp only [List.getElem_cons_succ]
          by_cases heq : rest[t'].1 = key <;> simp [heq] <;> omega

theorem pairwise_keys_getElem : ∀ (l : List (Int × BPTree)),
    ((l.map (·.1)).Pairwise (· < ·)) →
    ∀ a b (hab : a < b) (hb : b < l.length),
      l[a].1 < l[b].1 := by
  intro l
  induction l with
  | nil => intro _ a b _ hb; simp at hb
  | cons e t ih =>
      intro h a b hab hb
      rw [List.map_cons, List.pairwise_cons] at h
      obtain ⟨hhead, htail⟩ := h
      cases a with
      | zero =>
          obtain ⟨b', rfl⟩ : ∃ b', b = b' + 1 := ⟨b - 1, by omega⟩
          simp only [List.getElem_cons_zero, List.getElem_cons_succ]
          have hb' : b' < t.length := by simpa using hb
          exact hhead (t[b']).1
            (List.mem_map.mpr ⟨t[b'], List.getElem_mem _, rfl⟩)
      | succ a' =>
          obtain ⟨b', rfl⟩ : ∃ b', b = b' + 1 := ⟨b - 1, by omega⟩
          simp only [List.getElem_cons_succ]
          exact ih htail a' b' (by omega) (by simpa using hb)

theorem sorted_internal_keys (es : List (Int × BPTree))
    (hs : ((es.drop 1).map (·.1)).Pairwise (· < ·)) :
    ∀ a b (ha : 1 ≤ a) (hab : a < b) (hb : b < es.length),
      es[a].1 < es[b].1 := by
  cases es with
  | nil => intro a b _ _ hb; simp at hb
  | cons e rest =>
      intro a b ha hab hb
      obtain ⟨a', rfl⟩ : ∃ a', a = a' + 1 := ⟨a - 1, by omega⟩
      obtain ⟨b', rfl⟩ : ∃ b', b = b' + 1 := ⟨b - 1, by omega⟩
      simp only [List.getElem_cons_succ]
      exact pairwise_keys_getElem rest (by simpa using hs) a' b' (by omega)
        (by simpa using hb)

theorem childIndex_mem (es : List (Int × BPTree)) (key : Int)
    (hne : es ≠ [])
    (hsorted : ((es.drop 1).map (·.1)).Pairwise (· < ·))
    (hbounds : boundsOkB es = true)
    (hmem : key ∈ (toListL es).map Prod.fst) :
    ∃ jk c, es.get? (childIndex es key) = some (jk, c) ∧
      key ∈ c.toList.map Prod.fst := by
  obtain ⟨x, hx, hxk⟩ := List.mem_map.mp hmem
  obtain ⟨e, he, hxe⟩ := (mem_toListL es x).mp hx
  obtain ⟨m, hm, hme⟩ := List.getElem_of_mem he
  have hkeym : key ∈ (es[m].2.toList).map Prod.fst := by
    rw [hme]
    exact List.mem_map.mpr ⟨x, hxe, hxk⟩
  have hlen : 0 < es.length := List.length_pos.mpr hne
  have hA : ∀ s (h1 : 1 ≤ s) (h2 : s ≤ m), es[s].1 ≤ key := by
    intro s h1 h2
    have hm1 : 1 ≤ m := le_trans h1 h2
    have hlow : es[m].1 ≤ key := by
      have hb := (boundsOkB_adj es hbounds (m - 1) (by omega)).2
      simp only [Nat.sub_add_cancel hm1] at hb
      obtain ⟨y, hy, hyk⟩ := List.mem_map.mp hkeym
      have := hb y hy
      omega
    rcases Nat.lt_or_ge s m with hsm | hsm
    · have := sorted_internal_keys es hsorted s m h1 hsm hm
      omega
    · have hsm' : s = m := by omega
      subst hsm'
      exact hlow
  have hB : ∀ s (h1 : m < s) (h2 : s < es.length), key < es[s].1 := by
    intro s h1 h2
    have hm1 : m + 1 < es.length := by omega
    have hup : key < es[m + 1].1 := by
      have hb := (boundsOkB_adj es hbounds m hm1).1
      obtain ⟨y, hy, hyk⟩ := List.mem_map.mp hkeym
      have := hb y hy
      omega
    rcases Nat.lt_or_ge (m + 1) s with hs | hs
    · have := sorted_internal_keys es hsorted (m + 1) s (by omega) hs h2
      omega
    · have hs' : s = m + 1 := by omega
      subst hs'
      exact hup
  have hgetD : ∀ s (h : s < es.length), es.getD s (0, .leaf []) = es[s] := by
    intro s h
    simp [List.getD, List.getElem?_eq_getElem h]
  have hdropElem : ∀ s (h : s < (es.drop 1).length) (h2 : s + 1 < es.length),
      (es.drop 1)[s] = es[s + 1] := by
    intro s h h2
    rw [List.getElem_drop]
    simp only [Nat.add_comm 1 s]
  have hfinal : childIndex es key = m := by
    by_cases hex : ∃ s, s < es.length ∧ 1 ≤ s ∧
        ¬((es.getD s (0, .leaf [])).1 < key)
    · obtain ⟨htlen, ht1, htge'⟩ := Nat.find_spec hex
      have hminf : ∀ s, s < Nat.find hex →
          ¬(s < es.length ∧ 1 ≤ s ∧
            ¬((es.getD s (0, BPTree.leaf [])).1 < key)) :=
        fun s h => Nat.find_min hex h
      generalize hT : Nat.find hex = t at htlen ht1 htge' hminf
      rw [hgetD t htlen] at htge'
      have hmin : ∀ s (hst : s < t) (hsl : s < es.length) (hs1 : 1 ≤ s),
          es[s].1 < key := by
        intro s hst hsl hs1
        have h2 := hminf s hst
        push_neg at h2
        have h3 := h2 hsl hs1
        rw [hgetD s hsl] at h3
        omega
      have ht' : t - 1 < (es.drop 1).length := by
        simp
        omega
      have hltpre : ∀ s (hs : s < t - 1), (es.drop 1)[s].1 < key := by
        intro s hs
        rw [hdropElem s (by omega) (by omega)]
        exact hmin (s + 1) (by omega) (by omega) (by omega)
      have hnotpre : ¬((es.drop 1)[t - 1].1 < key) := by
        rw [hdropElem (t - 1) ht' (by omega)]
        simp only [Nat.sub_add_cancel ht1]
        exact htge'
      have hscan := scango_found key (es.drop 1) 1 (t - 1) ht' hltpre hnotpre
      rw [hdropElem (t - 1) ht' (by omega)] at hscan
      simp only [Nat.sub_add_cancel ht1] at hscan
      unfold childIndex
      rw [hscan]
      by_cases heq : es[t].1 = key
      · have htm : t = m := by
          rcases lt_trichotomy t m with hlt | h | hgt
          · have h1 := sorted_internal_keys es hsorted t m ht1 hlt hm
            have h2 := hA m (by omega) le_rfl
            omega
          · exact h
          · have := hB t hgt htlen
            omega
        rw [if_pos heq]
        omega
      · have hkey_lt : key < es[t].1 :=
          lt_of_le_of_ne (not_lt.mp htge') (fun h => heq h.symm)
        have htm : t = m + 1 := by
          rcases Nat.lt_or_ge m t with h1 | h1
          · by_contra hne'
            have hm1t : m + 1 < t := by omega
            have hx := hmin (m + 1) hm1t (by omega) (by omega)
            have hy := hB (m + 1) (by omega) (by omega)
            omega
          · have := hA t ht1 h1
            omega
        rw [if_neg heq]
        omega
    · push_neg at hex
      have hall : ∀ e ∈ es.drop 1, e.1 < key := by
        intro e he
        obtain ⟨s, hs, hse⟩ := List.getElem_of_mem he
        have hs' : s < es.length - 1 := by simpa using hs
        have := hex (s + 1) (by omega) (by omega)
        rw [hgetD (s + 1) (by omega)] at this
        rw [← hse, hdropElem s hs (by omega)]
        omega
      have hscan := scango_all_lt key (es.drop 1) 1 hall
      have hm' : m = es.length - 1 := by
        by_contra hne'
        have hmlt : m + 1 < es.length := by omega
        have h1 := hB (m + 1) (by omega) hmlt
        have h2 := hex (m + 1) hmlt (by omega)
        rw [hgetD (m + 1) hmlt] at h2
        omega
      unfold childIndex
      rw [hscan]
      simp
      omega
  refine ⟨(es[m]).1, (es[m]).2, ?_, hkeym⟩
  rw [hfinal, List.get?_eq_getElem?, List.getElem?_eq_getElem hm]

/-- C9 (insert half, auxiliary): on a well-formed subtree the descent of
`Insert` reaches the leaf holding a present key and reports the duplicate
without touching the tree. -/
theorem insertAux_dup (lm im : Nat) (value key : Int) :
    ∀ t : BPTree, wfB t = true → key ∈ t.toList.map Prod.fst →
      insertAux lm im key value t = .dup
  | .leaf es, _, hmem => by
      have hc : containsKeyLeaf es key = true := by
        simp only [BPTree.toList, List.mem_map] at hmem
        obtain ⟨e, he, hk⟩ := hmem
        simp only [containsKeyLeaf, List.any_eq_true]
        refine ⟨e, he, ?_⟩
        simp [cmp_eq_zero_iff, hk]
      simp [insertAux, hc]
  | .internal es, hwf, hmem => by
      have hwf' := hwf
      simp only [wfB, Bool.and_eq_true, decide_eq_true_eq] at hwf'
      obtain ⟨⟨⟨hne0, hsorted⟩, hbounds⟩, hwl⟩ := hwf'
      have hne : es ≠ [] := by simpa using hne0
      have hmem' : key ∈ (toListL es).map Prod.fst := by
        simpa [BPTree.toList] using hmem
      obtain ⟨jk, c, hj, hkc⟩ := childIndex_mem es key hne hsorted hbounds hmem'
      have hwfc : wfB c = true := by
        have := (wfL_forall es).mp hwl (jk, c) (List.get?_mem hj)
        simpa using this
      have hrec := insertAux_dup lm im value key c hwfc hkc
      rw [insertAux]
      split
      next heq =>
        rw [hj] at heq
        exact absurd heq (by simp)
      next jk' c' heq =>
        rw [hj] at heq
        injection heq with heq'
        injection heq' with h1 h2
        subst h1
        subst h2
        simp only [hrec]
  termination_by t => sizeOf t
  decreasing_by
    have h1 : sizeOf (jk, c) < sizeOf es := List.sizeOf_lt_of_mem (List.get?_mem hj)
    simp only [BPTree.internal.sizeOf_spec]
    simp only [Prod.mk.sizeOf_spec] at h1
    omega

/-- C9 (remove half, auxiliary): when the key is nowhere in the subtree and
every node meets its minimum occupancy, the removal descent leaves the
subtree untouched. -/
theorem removeAux_missing (lm im : Nat) (key : Int) :
    ∀ t : BPTree, sizeInvB lm im t = true →
      key ∉ t.toList.map Prod.fst →
      removeAux lm im key t = t
  | .leaf es, _, hmem => by
      have hnone : es.findIdx? (fun e => cmp e.1 key == 0) = none := by
        rw [List.findIdx?_eq_none_iff]
        intro e he
        have hne : e.1 ≠ key := fun h => hmem (List.mem_map.mpr ⟨e, he, h⟩)
        simp [cmp_eq_zero_iff, hne]
      simp [removeAux, deleteFromLeaf, hnone]
  | .internal es, hsz, hmem => by
      cases hj : es.get? (childIndex es key) with
      | none =>
          rw [removeAux]
          split
          · rfl
          next jk' c' heq =>
            rw [hj] at heq
            exact absurd heq (by simp)
      | some e =>
          obtain ⟨jk, c⟩ := e
          have hmemc : key ∉ c.toList.map Prod.fst := by
            intro hin
            apply hmem
            simp only [BPTree.toList, List.mem_map] at *
            obtain ⟨x, hx, hxk⟩ := hin
            exact ⟨x, (mem_toListL es x).mpr ⟨(jk, c), List.get?_mem hj, hx⟩, hxk⟩
          have hszc := (sizeInvL_forall lm im es).mp
            (by simpa [sizeInvB] using hsz) (jk, c) (List.get?_mem hj)
          have hrec := removeAux_missing lm im key c hszc.2 hmemc
          rw [removeAux]
          split
          · rfl
          next jk' c' heq =>
            rw [hj] at heq
            injection heq with heq'
            injection heq' with h1 h2
            subst h1
            subst h2
            simp only [hrec]
            rw [set_get?_eq_self es _ _ hj, if_pos hszc.1]
  termination_by t => sizeOf t
  decreasing_by
    have h1 : sizeOf (jk, c) < sizeOf es := List.sizeOf_lt_of_mem (List.get?_mem hj)
    simp only [BPTree.internal.sizeOf_spec]
    simp only [Prod.mk.sizeOf_spec] at h1
    omega

/-- C9. On a well-formed tree, inserting a key that is already present
returns false and leaves the tree untouched, and removing a key that is not
present leaves the key-to-value mapping unchanged. -/
theorem bptree_duplicate_insert_missing_remove
    (lm im : Nat) (key value : Int) (root : Option BPTree)
    (hwf : rootWf root = true) (hsz : rootSizeInv lm im root = true) :
    (key ∈ (rootToList root).map Prod.fst →
      Insert lm im key value root = (false, root)) ∧
    (key ∉ (rootToList root).map Prod.fst →
      rootToList (Remove lm im key root) = rootToList root) := by
  constructor
  · intro hmem
    cases root with
    | none => simp [rootToList] at hmem
    | some t =>
        have hdup := insertAux_dup lm im value key t
          (by simpa [rootWf] using hwf) (by simpa [rootToList] using hmem)
        simp [Insert, hdup]
  · intro hmem
    cases root with
    | none => rfl
    | some t =>
        have hrem := removeAux_missing lm im key t
          (by simpa [rootSizeInv] using hsz) (by simpa [rootToList] using hmem)
        simp only [Remove, hrem]
        cases t with
        | leaf es =>
            by_cases hlen : es.length = 0
            · have hnil : es = [] := List.length_eq_zero.mp hlen
              subst hnil
              simp [rootToList, BPTree.toList]
            · simp [hlen, rootToList]
        | internal es =>
            by_cases hlen : es.length = 1
            · obtain ⟨e, rfl⟩ : ∃ e, es = [e] := by
                cases es with
                | nil => simp at hlen
                | cons e rest =>
                    cases rest with
                    | nil => exact ⟨e, rfl⟩
                    | cons _ _ => simp at hlen
              simp [hlen, rootToList, BPTree.toList, toListL]
            · simp [hlen, rootToList]

/-- A well-formed two-leaf tree used to witness C9. -/
def bptDemo : BPTree :=
  .internal [(0, .leaf [(1, 10), (2, 20)]), (3, .leaf [(3, 30), (4, 40)])]

/-- Witness for C9: inserting the present key 3 fails and keeps the tree;
removing the absent key 7 keeps the mapping. -/
theorem bptree_duplicate_insert_missing_remove_witness :
    Insert 4 4 3 99 (some bptDemo) = (false, some bptDemo) ∧
    rootToList (Remove 4 4 7 (some bptDemo)) = rootToList (some bptDemo) :=
  ⟨(bptree_duplicate_insert_missing_remove 4 4 3 99 (some bptDemo)
      (by decide) (by decide)).1 (by decide),
   (bptree_duplicate_insert_missing_remove 4 4 7 99 (some bptDemo)
      (by decide) (by decide)).2 (by decide)⟩

/-! ## Extendible hash table (src/container/hash/extendible_hash_table.cpp)

Buckets live in a store; a directory slot holds the index of its bucket, so
slots sharing a `shared_ptr<Bucket>` in the C++ code share a store index
here.  The hash function is a parameter (`std::hash<K>`). -/

/-- `ExtendibleHashTable::Bucket`: local depth and the entry list (newest
first, as `Bucket::Insert` pushes at the front). -/
structure EBucket (K V : Type) where
  depth : Nat
  items : List (K × V)
  deriving DecidableEq, Repr

/-- `ExtendibleHashTable`: global depth, bucket capacity, bucket count, the
directory of store indices, and the bucket store. -/
structure EHT (K V : Type) where
  global_depth : Nat
  bucket_size : Nat
  num_buckets : Nat
  dir : List Nat
  store : List (EBucket K V)
  deriving DecidableEq, Repr

/-- `ExtendibleHashTable::IndexOf` (lines 30-34): the low `global_depth_`
bits of the hash. -/
def IndexOf (hash : Nat) (G : Nat) : Nat := hash % 2 ^ G

/-- `Bucket::Update` (lines 173-182): overwrite the value of the first entry
with a matching key; `none` when the key is absent. -/
def updateList {K V : Type} [DecidableEq K] :
    List (K × V) → K → V → Option (List (K × V))
  | [], _, _ => none
  | e :: rest, key, value =>
      if e.1 = key then some ((e.1, value) :: rest)
      else (updateList rest key value).map (e :: ·)

/-- Modelled from the spec: `Bucket::IsFull` lives in the missing header
extendible_hash_table.h; per §4.2 a bucket has capacity for `bucket_size`
entries and overflows beyond that. -/
def ebucketIsFull {K V : Type} (bucket_size : Nat) (b : EBucket K V) : Bool :=
  bucket_size ≤ b.items.length

/-- The repoint loop of `ExtendibleHashTable::Insert` (lines 125-129):
`while (new_bucket_id < dir_.size()) { dir_[new_bucket_id] = new_bucket;
new_bucket_id += increment; }`.  The fuel only bounds the iteration count;
`dir.length` is always enough since the increment is positive. -/
def repointLoop : Nat → Nat → Nat → List Nat → Nat → List Nat
  | 0, _, _, dir, _ => dir
  | fuel + 1, increment, newIdx, dir, id =>
      if id < dir.length then
        repointLoop fuel increment newIdx (dir.set id newIdx) (id + increment)
      else dir

/-- One iteration of the splitting loop of `ExtendibleHashTable::Insert`
(lines 95-131): double the directory by mirroring when the overflowing
bucket's local depth reaches the global depth; increment that bucket's depth;
allocate the sibling; rebucket the entries by the old-depth bit; repoint every
directory slot whose low bits match the sibling's pattern. -/
def splitStep {K V : Type} (hash : K → Nat) (st : EHT K V) (key : K) :
    EHT K V :=
  let index := IndexOf (hash key) st.global_depth
  let st :=
    if (st.store.getD (st.dir.getD index 0) (⟨0, []⟩ : EBucket K V)).depth = st.global_depth then
      { st with global_depth := st.global_depth + 1, dir := st.dir ++ st.dir }
    else st
  let bIdx := st.dir.getD index 0
  let p := st.store.getD bIdx (⟨0, []⟩ : EBucket K V)
  let old_local_depth := p.depth
  let local_depth_bits := hash key % 2 ^ old_local_depth
  let new_bucket_id := 2 ^ old_local_depth + local_depth_bits
  let keepItems := p.items.filter fun e => !(hash e.1).testBit old_local_depth
  let movedItems := (p.items.filter fun e => (hash e.1).testBit old_local_depth).reverse
  let newIdx := st.store.length
  let st :=
    { st with
      store := (st.store.set bIdx (⟨old_local_depth + 1, keepItems⟩ : EBucket K V))
        ++ [(⟨old_local_depth + 1, movedItems⟩ : EBucket K V)]
      num_buckets := st.num_buckets + 1 }
  { st with
    dir := repointLoop st.dir.length (2 ^ (old_local_depth + 1)) newIdx
      st.dir new_bucket_id }

/-- The splitting loop of `ExtendibleHashTable::Insert` (line 95): repeat the
body while the target bucket is still full.  The code's loop has no fuel; it
terminates whenever the keys in the overflowing bucket do not all share one
hash. -/
def insertWhile {K V : Type} (hash : K → Nat) :
    Nat → EHT K V → K → EHT K V
  | 0, st, _ => st
  | fuel + 1, st, key =>
      let index := IndexOf (hash key) st.global_depth
      if ebucketIsFull st.bucket_size (st.store.getD (st.dir.getD index 0) (⟨0, []⟩ : EBucket K V))
      then insertWhile hash fuel (splitStep hash st key) key
      else st

/-- `ExtendibleHashTable::Insert` (lines 88-135): update in place when the
key exists (or the capacity is zero); otherwise split while the target bucket
is full, then push the entry at the front of the bucket now indexed by the
key. -/
def InsertEHT {K V : Type} [DecidableEq K] (hash : K → Nat) (fuel : Nat)
    (st : EHT K V) (key : K) (value : V) : EHT K V :=
  let index := IndexOf (hash key) st.global_depth
  let bIdx := st.dir.getD index 0
  let b := st.store.getD bIdx (⟨0, []⟩ : EBucket K V)
  if st.bucket_size = 0 then st
  else
    match updateList b.items key value with
    | some items' => { st with store := st.store.set bIdx ⟨b.depth, items'⟩ }
    | none =>
        let st := insertWhile hash fuel st key
        let index := IndexOf (hash key) st.global_depth
        let bIdx := st.dir.getD index 0
        let b := st.store.getD bIdx (⟨0, []⟩ : EBucket K V)
        { st with store := st.store.set bIdx ⟨b.depth, (key, value) :: b.items⟩ }

/-! Helper lemmas about `List.getD` used for the directory and store arrays. -/

theorem getD_set_ne {α : Type} :
    ∀ (l : List α) (i j : Nat) (a d : α), i ≠ j → (l.set i a).getD j d = l.getD j d
  | [], _, _, _, _, _ => rfl
  | _ :: _, 0, 0, _, _, h => absurd rfl h
  | _ :: _, 0, _ + 1, _, _, _ => rfl
  | _ :: _, _ + 1, 0, _, _, _ => rfl
  | _ :: t, i + 1, j + 1, a, d, h => getD_set_ne t i j a d fun hh => h (by omega)

theorem getD_append_left {α : Type} :
    ∀ (l m : List α) (i : Nat) (d : α), i < l.length → (l ++ m).getD i d = l.getD i d
  | [], _, _, _, h => absurd h (by simp)
  | _ :: _, _, 0, _, _ => rfl
  | _ :: t, m, i + 1, d, h => getD_append_left t m i d (by simp at h; omega)

theorem getD_append_right {α : Type} :
    ∀ (l m : List α) (i : Nat) (d : α), l.length ≤ i →
      (l ++ m).getD i d = m.getD (i - l.length) d
  | [], _, _, _, _ => by simp
  | _ :: _, _, 0, _, h => absurd h (by simp)
  | _ :: t, m, i + 1, d, h => by
      have hrec := getD_append_right t m i d (by simp at h; omega)
      simpa [Nat.succ_sub_succ] using hrec

theorem getD_mem {α : Type} :
    ∀ (l : List α) (i : Nat) (d : α), i < l.length → l.getD i d ∈ l
  | [], _, _, h => absurd h (by simp)
  | x :: t, 0, _, _ => List.mem_cons_self x t
  | x :: t, i + 1, d, h => List.mem_cons_of_mem x (getD_mem t i d (by simp at h; omega))

theorem mod_eq_zero_step (inc a : Nat) (hpos : 0 < inc) (ha : 0 < a) :
    a % inc = 0 ↔ inc ≤ a ∧ (a - inc) % inc = 0 := by
  have hkey : ∀ _ : inc ≤ a, (a - inc) % inc = a % inc := by
    intro hle
    conv_rhs => rw [← Nat.sub_add_cancel hle]
    rw [Nat.add_mod_right]
  constructor
  · intro h
    have hle : inc ≤ a := Nat.le_of_dvd ha (Nat.dvd_of_mod_eq_zero h)
    exact ⟨hle, by rw [hkey hle, h]⟩
  · rintro ⟨hle, h⟩
    rw [← hkey hle]
    exact h

theorem residue_iff (inc s i : Nat) (hpos : 0 < inc) (hs : s < inc) :
    (s ≤ i ∧ (i - s) % inc = 0) ↔ i % inc = s := by
  constructor
  · rintro ⟨hle, h⟩
    obtain ⟨k, hk⟩ := Nat.dvd_of_mod_eq_zero h
    have hi : i = s + inc * k := by omega
    rw [hi, Nat.add_mul_mod_self_left, Nat.mod_eq_of_lt hs]
  · intro h
    have hd : inc * (i / inc) + i % inc = i := Nat.div_add_mod i inc
    refine ⟨by omega, ?_⟩
    have hsub : i - s = inc * (i / inc) := by omega
    rw [hsub, Nat.mul_mod_right]

/-- The repoint loop overwrites exactly the slots `id, id + inc, id + 2*inc, …`
with the new bucket's index. -/
theorem repointLoop_spec :
    ∀ (fuel inc newIdx : Nat) (dir : List Nat) (id : Nat), 0 < inc →
      dir.length ≤ id + fuel * inc →
      (repointLoop fuel inc newIdx dir id).length = dir.length ∧
      ∀ i, i < dir.length →
        (repointLoop fuel inc newIdx dir id).getD i 0 =
          if id ≤ i ∧ (i - id) % inc = 0 then newIdx else dir.getD i 0
  | 0, inc, newIdx, dir, id, _, hfuel => by
      refine ⟨rfl, fun i hi => ?_⟩
      rw [if_neg]
      · rfl
      · rintro ⟨hle, -⟩
        simp only [Nat.zero_mul] at hfuel
        omega
  | fuel + 1, inc, newIdx, dir, id, hpos, hfuel => by
      have hmul : (fuel + 1) * inc = fuel * inc + inc := by ring
      rw [repointLoop]
      by_cases hid : id < dir.length
      · rw [if_pos hid]
        have hrec := repointLoop_spec fuel inc newIdx (dir.set id newIdx) (id + inc) hpos
          (by simp only [List.length_set]; omega)
        refine ⟨by rw [hrec.1, List.length_set], fun i hi => ?_⟩
        have hi' : i < (dir.set id newIdx).length := by
          simpa [List.length_set] using hi
        rw [hrec.2 i hi']
        by_cases heq : i = id
        · subst heq
          rw [if_neg (by rintro ⟨h1, -⟩; omega), getD_set_self _ _ _ _ hid,
            if_pos ⟨Nat.le_refl i, by simp⟩]
        · rw [getD_set_ne _ _ _ _ _ fun hh => heq hh.symm]
          by_cases hle : id ≤ i
          · have hlt : id < i := lt_of_le_of_ne hle fun h => heq h.symm
            have hstep := mod_eq_zero_step inc (i - id) hpos (by omega)
            rw [Nat.sub_sub] at hstep
            refine if_congr ?_ rfl rfl
            constructor
            · rintro ⟨h1, h2⟩
              exact ⟨hle, hstep.mpr ⟨by omega, h2⟩⟩
            · rintro ⟨h1, h2⟩
              obtain ⟨h3, h4⟩ := hstep.mp h2
              exact ⟨by omega, h4⟩
          · rw [if_neg (fun hc => hle (by have := hc.1; omega)),
              if_neg (fun hc => hle hc.1)]
      · rw [if_neg hid]
        refine ⟨rfl, fun i hi => ?_⟩
        rw [if_neg (fun hc => by have := hc.1; omega)]

/-- Doubling the directory by self-append makes every slot mirror the slot
whose index is its low `n` bits. -/
theorem getD_append_self_mod (l : List Nat) (n i : Nat) (hl : l.length = 2 ^ n)
    (hi : i < 2 ^ (n + 1)) : (l ++ l).getD i 0 = l.getD (i % 2 ^ n) 0 := by
  have hp : (2 : Nat) ^ (n + 1) = 2 ^ n * 2 := pow_succ 2 n
  by_cases hc : i < 2 ^ n
  · rw [getD_append_left _ _ _ _ (by omega), Nat.mod_eq_of_lt hc]
  · push_neg at hc
    have hsub : i % 2 ^ n = i - 2 ^ n := by
      have h2 : i - 2 ^ n < 2 ^ n := by omega
      conv_lhs => rw [show i = i - 2 ^ n + 2 ^ n by omega]
      rw [Nat.add_mod_right, Nat.mod_eq_of_lt h2]
    rw [hsub, getD_append_right _ _ _ _ (by omega), hl]

/-- Closed form of one iteration of the splitting loop: the four stages of
`ExtendibleHashTable::Insert` lines 95-131 written as a single record. -/
theorem splitStep_eq {K V : Type} (hash : K → Nat) (st : EHT K V) (key : K)
    (bIdx d : Nat) (b : EBucket K V) (dirD : List Nat)
    (hidx : IndexOf (hash key) st.global_depth < st.dir.length)
    (hbIdx : bIdx = st.dir.getD (IndexOf (hash key) st.global_depth) 0)
    (hb : b = st.store.getD bIdx (⟨0, []⟩ : EBucket K V))
    (hd : d = b.depth)
    (hdirD : dirD = if d = st.global_depth then st.dir ++ st.dir else st.dir) :
    splitStep hash st key =
      { global_depth := if d = st.global_depth then st.global_depth + 1 else st.global_depth
        bucket_size := st.bucket_size
        num_buckets := st.num_buckets + 1
        dir := repointLoop dirD.length (2 ^ (d + 1)) st.store.length dirD
          (2 ^ d + hash key % 2 ^ d)
        store := (st.store.set bIdx
            (⟨d + 1, b.items.filter fun e => !(hash e.1).testBit d⟩ : EBucket K V))
          ++ [(⟨d + 1, (b.items.filter fun e => (hash e.1).testBit d).reverse⟩ :
            EBucket K V)] } := by
  subst hd
  subst hb
  subst hbIdx
  subst hdirD
  by_cases hc : (st.store.getD (st.dir.getD (IndexOf (hash key) st.global_depth) 0)
      (⟨0, []⟩ : EBucket K V)).depth = st.global_depth
  · simp only [splitStep, if_pos hc]
    rw [getD_append_left _ _ _ _ hidx]
  · simp only [splitStep, if_neg hc]

/-- **C7.** For an Insert whose target bucket is full: the splitting loop runs
one split iteration per overflow check; when the target's local depth `d`
equals the global depth `G` the directory doubles, each slot mirroring the
slot whose index is its low `G` bits; the overflowing bucket's depth is
incremented and its sibling is appended at the end of the store at depth
`d + 1`; the entries are rebucketed by bit `d` of their hash; exactly the
directory slots whose low `d + 1` bits match the sibling's pattern
`2^d + (hash key mod 2^d)` are repointed to the sibling; and afterwards the
entry is pushed at the front of the bucket now indexed by the key. -/
theorem eht_insert_split_characterization {K V : Type} [DecidableEq K]
    (hash : K → Nat) (st : EHT K V) (key : K) (value : V) (fuel : Nat)
    (G d bIdx : Nat) (b : EBucket K V) (dirD : List Nat) (stw : EHT K V)
    (wIdx : Nat) (bw : EBucket K V)
    (hG : G = st.global_depth)
    (hlen : st.dir.length = 2 ^ st.global_depth)
    (hstore : ∀ j ∈ st.dir, j < st.store.length)
    (hbIdx : bIdx = st.dir.getD (IndexOf (hash key) st.global_depth) 0)
    (hb : b = st.store.getD bIdx (⟨0, []⟩ : EBucket K V))
    (hd : d = b.depth)
    (hdirD : dirD = if d = G then st.dir ++ st.dir else st.dir)
    (hstw : stw = insertWhile hash fuel st key)
    (hwIdx : wIdx = stw.dir.getD (IndexOf (hash key) stw.global_depth) 0)
    (hbw : bw = stw.store.getD wIdx (⟨0, []⟩ : EBucket K V)) :
    (insertWhile hash (fuel + 1) st key =
      if ebucketIsFull st.bucket_size b then
        insertWhile hash fuel (splitStep hash st key) key
      else st) ∧
    ((splitStep hash st key).global_depth = if d = G then G + 1 else G) ∧
    (dirD.length = (if d = G then 2 ^ (G + 1) else 2 ^ G) ∧
      ∀ i, i < dirD.length → dirD.getD i 0 = st.dir.getD (i % 2 ^ G) 0) ∧
    ((splitStep hash st key).store.length = st.store.length + 1 ∧
      (splitStep hash st key).store.getD bIdx (⟨0, []⟩ : EBucket K V) =
        ⟨d + 1, b.items.filter fun e => !(hash e.1).testBit d⟩ ∧
      (splitStep hash st key).store.getD st.store.length (⟨0, []⟩ : EBucket K V) =
        ⟨d + 1, (b.items.filter fun e => (hash e.1).testBit d).reverse⟩ ∧
      ∀ j, j < st.store.length → j ≠ bIdx →
        (splitStep hash st key).store.getD j (⟨0, []⟩ : EBucket K V) =
          st.store.getD j (⟨0, []⟩ : EBucket K V)) ∧
    ((splitStep hash st key).num_buckets = st.num_buckets + 1) ∧
    ((splitStep hash st key).dir.length = dirD.length ∧
      ∀ i, i < dirD.length →
        (splitStep hash st key).dir.getD i 0 =
          if i % 2 ^ (d + 1) = 2 ^ d + hash key % 2 ^ d then st.store.length
          else dirD.getD i 0) ∧
    (st.bucket_size ≠ 0 → updateList b.items key value = none →
      InsertEHT hash fuel st key value =
        { stw with store := stw.store.set wIdx ⟨bw.depth, (key, value) :: bw.items⟩ }) := by
  subst hG
  have hidx : IndexOf (hash key) st.global_depth < st.dir.length := by
    rw [hlen]
    exact Nat.mod_lt _ (by positivity)
  have hbIdx_lt : bIdx < st.store.length := by
    rw [hbIdx]
    exact hstore _ (getD_mem st.dir _ 0 hidx)
  have hsplit := splitStep_eq hash st key bIdx d b dirD hidx hbIdx hb hd hdirD
  have hp : (0 : Nat) < 2 ^ (d + 1) := by positivity
  have hfb : dirD.length ≤ (2 ^ d + hash key % 2 ^ d) + dirD.length * 2 ^ (d + 1) := by
    have h2 : dirD.length ≤ dirD.length * 2 ^ (d + 1) :=
      Nat.le_mul_of_pos_right _ hp
    omega
  have hp2 : (2 : Nat) ^ (st.global_depth + 1) = 2 ^ st.global_depth * 2 :=
    pow_succ 2 st.global_depth
  refine ⟨?_, ?_, ⟨?_, ?_⟩, ⟨?_, ?_, ?_, ?_⟩, ?_, ⟨?_, ?_⟩, ?_⟩
  · rw [hb, hbIdx]
    rfl
  · rw [hsplit]
  · rw [hdirD]
    by_cases hc : d = st.global_depth
    · simp only [if_pos hc, List.length_append, hlen]
      omega
    · simp only [if_neg hc, hlen]
  · intro i hi
    rw [hdirD] at hi ⊢
    by_cases hc : d = st.global_depth
    · rw [if_pos hc] at hi ⊢
      refine getD_append_self_mod st.dir st.global_depth i hlen ?_
      rw [List.length_append, hlen] at hi
      omega
    · rw [if_neg hc] at hi ⊢
      rw [hlen] at hi
      rw [Nat.mod_eq_of_lt hi]
  · rw [hsplit]
    simp [List.length_set]
  · rw [hsplit,
      getD_append_left _ _ _ _ (by rw [List.length_set]; exact hbIdx_lt),
      getD_set_self _ _ _ _ hbIdx_lt]
  · rw [hsplit, getD_append_right _ _ _ _ (by simp)]
    simp [List.length_set]
  · intro j hj hjne
    rw [hsplit,
      getD_append_left _ _ _ _ (by rw [List.length_set]; exact hj),
      getD_set_ne _ _ _ _ _ fun hh => hjne hh.symm]
  · rw [hsplit]
  · rw [hsplit]
    exact (repointLoop_spec dirD.length (2 ^ (d + 1)) st.store.length dirD
      (2 ^ d + hash key % 2 ^ d) hp hfb).1
  · intro i hi
    rw [hsplit]
    rw [(repointLoop_spec dirD.length (2 ^ (d + 1)) st.store.length dirD
      (2 ^ d + hash key % 2 ^ d) hp hfb).2 i hi]
    refine if_congr (residue_iff _ _ _ hp ?_) rfl rfl
    have hm : hash key % 2 ^ d < 2 ^ d := Nat.mod_lt _ (by positivity)
    have hq : (2 : Nat) ^ (d + 1) = 2 ^ d * 2 := pow_succ 2 d
    omega
  · intro h0 hupd
    rw [hb, hbIdx] at hupd
    simp only [InsertEHT, if_neg h0]
    rw [hupd, hbw, hwIdx, hstw]

/-- A two-bucket table at global depth 1 whose bucket 0 is full: inserting
key 4 forces one doubling-and-split iteration. -/
def ehtScenario : EHT Nat Nat :=
  ⟨1, 2, 2, [0, 1], [⟨1, [(0, 10), (2, 20)]⟩, ⟨1, [(1, 11)]⟩]⟩

/-- `ehtScenario` after the split loop: directory doubled to `[0, 1, 2, 1]`,
bucket 0 split into buckets 0 and 2 at local depth 2. -/
def ehtScenarioSplit : EHT Nat Nat :=
  ⟨2, 2, 3, [0, 1, 2, 1], [⟨2, [(0, 10)]⟩, ⟨1, [(1, 11)]⟩, ⟨2, [(2, 20)]⟩]⟩

theorem eht_insert_split_characterization_witness :
    (insertWhile (fun n => n) (1 + 1) ehtScenario 4 =
      if ebucketIsFull ehtScenario.bucket_size (⟨1, [(0, 10), (2, 20)]⟩ : EBucket Nat Nat) then
        insertWhile (fun n => n) 1 (splitStep (fun n => n) ehtScenario 4) 4
      else ehtScenario) ∧
    ((splitStep (fun n => n) ehtScenario 4).global_depth = if 1 = 1 then 1 + 1 else 1) ∧
    (([0, 1, 0, 1] : List Nat).length = (if 1 = 1 then 2 ^ (1 + 1) else 2 ^ 1) ∧
      ∀ i, i < ([0, 1, 0, 1] : List Nat).length →
        ([0, 1, 0, 1] : List Nat).getD i 0 = ehtScenario.dir.getD (i % 2 ^ 1) 0) ∧
    ((splitStep (fun n => n) ehtScenario 4).store.length = ehtScenario.store.length + 1 ∧
      (splitStep (fun n => n) ehtScenario 4).store.getD 0 (⟨0, []⟩ : EBucket Nat Nat) =
        ⟨1 + 1, [(0, 10), (2, 20)].filter fun e => !(e.1).testBit 1⟩ ∧
      (splitStep (fun n => n) ehtScenario 4).store.getD ehtScenario.store.length
          (⟨0, []⟩ : EBucket Nat Nat) =
        ⟨1 + 1, ([(0, 10), (2, 20)].filter fun e => (e.1).testBit 1).reverse⟩ ∧
      ∀ j, j < ehtScenario.store.length → j ≠ 0 →
        (splitStep (fun n => n) ehtScenario 4).store.getD j (⟨0, []⟩ : EBucket Nat Nat) =
          ehtScenario.store.getD j (⟨0, []⟩ : EBucket Nat Nat)) ∧
    ((splitStep (fun n => n) ehtScenario 4).num_buckets = ehtScenario.num_buckets + 1) ∧
    ((splitStep (fun n => n) ehtScenario 4).dir.length = ([0, 1, 0, 1] : List Nat).length ∧
      ∀ i, i < ([0, 1, 0, 1] : List Nat).length →
        (splitStep (fun n => n) ehtScenario 4).dir.getD i 0 =
          if i % 2 ^ (1 + 1) = 2 ^ 1 + 4 % 2 ^ 1 then ehtScenario.store.length
          else ([0, 1, 0, 1] : List Nat).getD i 0) ∧
    (ehtScenario.bucket_size ≠ 0 → updateList [(0, 10), (2, 20)] 4 40 = none →
      InsertEHT (fun n => n) 1 ehtScenario 4 40 =
        { ehtScenarioSplit with
            store := ehtScenarioSplit.store.set 0 ⟨2, (4, 40) :: [(0, 10)]⟩ }) :=
  eht_insert_split_characterization (fun n => n) ehtScenario 4 40 1 1 1 0
    (⟨1, [(0, 10), (2, 20)]⟩ : EBucket Nat Nat) [0, 1, 0, 1] ehtScenarioSplit 0
    (⟨2, [(0, 10)]⟩ : EBucket Nat Nat) rfl rfl (by decide) rfl rfl rfl rfl
    (by decide) rfl rfl

/-! ### Deadlock detection: `LockManager::HasCycle` (lock_manager.cpp 613-654)

The detector copies the keys of `waits_for_` into a `std::set` (so the outer
iteration is in ascending id order), then runs a colored DFS from each
transaction.  When a GRAY neighbour `next` of the current node `s` is found,
the victim is the maximum id accumulated while walking the `parent` chain
from `s` back to `next`.  The WHITE/GRAY/BLACK constants live in the missing
header; they are modelled as an enumeration with WHITE as the initial value
of every map entry. -/

inductive DColor
  | white
  | gray
  | black
  deriving DecidableEq, Repr

/-- The victim walk (lines 626-634): `max_txn = s; now = s;
while (now != next) { now = parent[now]; max_txn = max(max_txn, now); }`.
The fuel only bounds the iteration count of the unbounded `while`. -/
def walkMax (parent : Int → Int) (next : Int) : Nat → Int → Int → Int
  | 0, _, acc => acc
  | fuel + 1, now, acc =>
      if now = next then acc
      else walkMax parent next fuel (parent now) (max acc (parent now))

/-- The neighbour loop of the recursive lambda `dfs`: skip BLACK, report a
victim on GRAY, set `parent[next] = s` and recurse on WHITE; when the list is
done mark `s` BLACK and report no cycle from here.  The recursive call of the
C++ lambda is passed in as `dfs` (one fuel level less). -/
def dfsList (adj : Int → List Int) (wfuel : Nat)
    (dfs : (Int → DColor) → (Int → Int) → Int →
      Option (Option Int × (Int → DColor) × (Int → Int))) :
    (Int → DColor) → (Int → Int) → Int → List Int →
      Option (Option Int × (Int → DColor) × (Int → Int))
  | color, parent, s, [] =>
      some (none, (fun t => if t = s then .black else color t), parent)
  | color, parent, s, next :: rest =>
      if color next = .black then dfsList adj wfuel dfs color parent s rest
      else if color next = .gray then
        some (some (walkMax parent next wfuel s s), color, parent)
      else
        match dfs color (fun t => if t = next then s else parent t) next with
        | none => none
        | some (some v, color2, parent2) => some (some v, color2, parent2)
        | some (none, color2, parent2) => dfsList adj wfuel dfs color2 parent2 s rest

/-- The recursive lambda `dfs` (lines 620-644): mark `s` GRAY and scan its
neighbours; `none` models running out of recursion fuel. -/
def dfsNode (adj : Int → List Int) (wfuel : Nat) :
    Nat → (Int → DColor) → (Int → Int) → Int →
      Option (Option Int × (Int → DColor) × (Int → Int))
  | 0, _, _, _ => none
  | fuel + 1, color, parent, s =>
      dfsList adj wfuel (dfsNode adj wfuel fuel)
        (fun t => if t = s then .gray else color t) parent s (adj s)

/-- The outer loop of `HasCycle` (lines 645-653): reset every colour to WHITE
and every parent to -1, then start a DFS from each transaction in order.
`some (some v)` is `return true` with victim `v`, `some none` is
`return false`, `none` is fuel exhaustion (absent from the unbounded C++). -/
def hasCycleGo (adj : Int → List Int) (fuel : Nat) : List Int → Option (Option Int)
  | [] => some none
  | beg :: rest =>
      match dfsNode adj fuel fuel (fun _ => .white) (fun _ => -1) beg with
      | none => none
      | some (some v, _, _) => some (some v)
      | some (none, _, _) => hasCycleGo adj fuel rest

/-- Sorted-set insertion: the effect of `std::set<txn_id_t>::insert`. -/
def insertSorted (x : Int) : List Int → List Int
  | [] => [x]
  | y :: t => if x < y then x :: y :: t else if x = y then y :: t else y :: insertSorted x t

/-- Lines 616-618: copy the keys of `waits_for_` into the `std::set` `txns`. -/
def txnsOf (wf : List (Int × List Int)) : List Int :=
  wf.foldl (fun acc p => insertSorted p.1 acc) []

/-- Neighbour lookup in `waits_for_`: the stored edge list, empty when the
transaction has no entry. -/
def adjOf (wf : List (Int × List Int)) (t : Int) : List Int :=
  ((wf.find? fun p => p.1 == t).map Prod.snd).getD []

/-- `LockManager::HasCycle` over a waits-for graph given as an association
list. -/
def HasCycle (wf : List (Int × List Int)) (fuel : Nat) : Option (Option Int) :=
  hasCycleGo (adjOf wf) fuel (txnsOf wf)

/-- A parent-linked chain inside the graph: consecutive entries `x :: y`
satisfy `parent x = y` and the graph has the tree edge `y → x`. -/
def isChain (adj : Int → List Int) (parent : Int → Int) : List Int → Prop
  | [] => True
  | [_] => True
  | x :: y :: t => parent x = y ∧ x ∈ adj y ∧ isChain adj parent (y :: t)

/-- A chain of graph edges: consecutive entries `x :: y` satisfy
`x ∈ adj y`, i.e. the graph has the edge `y → x`. -/
def edgeChain (adj : Int → List Int) : List Int → Prop
  | [] => True
  | [_] => True
  | x :: y :: t => x ∈ adj y ∧ edgeChain adj (y :: t)

/-- `cyc` written back-to-front is a directed cycle of the waits-for graph
(`cyc = [s, …, next]` traverses `s → next → … → s` against the edges), and
`v` is the largest transaction id on it. -/
def IsCycleWithMax (adj : Int → List Int) (cyc : List Int) (v : Int) : Prop :=
  cyc ≠ [] ∧ edgeChain adj cyc ∧ cyc.getLastD 0 ∈ adj (cyc.headD 0) ∧
    v ∈ cyc ∧ ∀ t ∈ cyc, t ≤ v

theorem walkMax_stop (parent : Int → Int) (next a : Int) :
    ∀ w : Nat, walkMax parent next w next a = a
  | 0 => rfl
  | w + 1 => by simp [walkMax]

theorem le_foldl_max : ∀ (l : List Int) (a : Int), a ≤ l.foldl max a
  | [], _ => le_refl _
  | x :: t, a => le_trans (le_max_left a x) (le_foldl_max t (max a x))

theorem mem_le_foldl_max : ∀ (l : List Int) (a x : Int), x ∈ l → x ≤ l.foldl max a
  | [], _, _, hx => absurd hx (by simp)
  | y :: t, a, x, hx => by
      rcases List.mem_cons.mp hx with h | h
      · subst h
        exact le_trans (le_max_right a x) (le_foldl_max t (max a x))
      · exact mem_le_foldl_max t (max a y) x h

theorem foldl_max_mem : ∀ (l : List Int) (a : Int), l.foldl max a = a ∨ l.foldl max a ∈ l
  | [], _ => Or.inl rfl
  | x :: t, a => by
      rcases foldl_max_mem t (max a x) with h | h
      · rcases max_choice a x with h2 | h2
        · exact Or.inl (by rw [List.foldl_cons, h, h2])
        · exact Or.inr (by rw [List.foldl_cons, h, h2]; exact List.mem_cons_self x t)
      · exact Or.inr (List.mem_cons_of_mem x (by rw [List.foldl_cons]; exact h))

theorem getLastD_concat : ∀ (l : List Int) (a d : Int), (l ++ [a]).getLastD d = a
  | [], _, _ => rfl
  | x :: t, a, d => by
      rw [List.cons_append, List.getLastD_cons]
      exact getLastD_concat t a x

theorem isChain_congr (adj : Int → List Int) :
    ∀ (l : List Int) (p q : Int → Int),
      (∀ x ∈ l, q x = p x) → isChain adj p l → isChain adj q l
  | [], _, _, _, _ => trivial
  | [_], _, _, _, _ => trivial
  | x :: y :: t, p, q, hag, hch => by
      obtain ⟨h1, h2, h3⟩ := hch
      exact ⟨(hag x (by simp)).trans h1, h2,
        isChain_congr adj (y :: t) p q (fun z hz => hag z (List.mem_cons_of_mem x hz)) h3⟩

theorem isChain_prefix (adj : Int → List Int) :
    ∀ (l m : List Int) (p : Int → Int), isChain adj p (l ++ m) → isChain adj p l
  | [], _, _, _ => trivial
  | [_], _, _, _ => trivial
  | x :: y :: t, m, p, h => by
      obtain ⟨h1, h2, h3⟩ := h
      exact ⟨h1, h2, isChain_prefix adj (y :: t) m p h3⟩

theorem isChain_to_edgeChain (adj : Int → List Int) :
    ∀ (l : List Int) (p : Int → Int), isChain adj p l → edgeChain adj l
  | [], _, _ => trivial
  | [_], _, _ => trivial
  | _ :: y :: t, p, h => ⟨h.2.1, isChain_to_edgeChain adj (y :: t) p h.2.2⟩

/-- Along a parent-linked chain from `s` to `next` the victim walk visits
exactly the chain and accumulates its maximum. -/
theorem walkMax_path (adj : Int → List Int) (parent : Int → Int) (next : Int) :
    ∀ (mid : List Int) (fuel : Nat) (s a : Int),
      mid.length < fuel →
      isChain adj parent (s :: (mid ++ [next])) →
      s ≠ next →
      (∀ x ∈ mid, x ≠ next) →
      walkMax parent next fuel s a = (mid ++ [next]).foldl max a
  | [], fuel, s, a, hlen, hch, hs, _ => by
      obtain ⟨fuel, rfl⟩ : ∃ f, fuel = f + 1 := ⟨fuel - 1, by omega⟩
      obtain ⟨h1, -, -⟩ := hch
      rw [walkMax, if_neg hs, h1]
      simp [walkMax_stop]
  | c :: rest, fuel, s, a, hlen, hch, hs, hmid => by
      obtain ⟨fuel, rfl⟩ : ∃ f, fuel = f + 1 := ⟨fuel - 1, by omega⟩
      obtain ⟨h1, -, h3⟩ := hch
      rw [walkMax, if_neg hs, h1]
      have := walkMax_path adj parent next rest fuel c (max a c)
        (by simp at hlen ⊢; omega) h3 (hmid c (List.mem_cons_self c rest))
        (fun x hx => hmid x (List.mem_cons_of_mem c hx))
      simpa using this

theorem mem_insertSorted :
    ∀ (l : List Int) (x z : Int), z ∈ insertSorted x l → z = x ∨ z ∈ l
  | [], x, z, h => Or.inl (by simpa [insertSorted] using h)
  | y :: t, x, z, h => by
      rw [insertSorted] at h
      by_cases h1 : x < y
      · rw [if_pos h1] at h
        rcases List.mem_cons.mp h with h2 | h2
        · exact Or.inl h2
        · exact Or.inr h2
      · rw [if_neg h1] at h
        by_cases h2 : x = y
        · rw [if_pos h2] at h
          exact Or.inr h
        · rw [if_neg h2] at h
          rcases List.mem_cons.mp h with h3 | h3
          · exact Or.inr (h3 ▸ List.mem_cons_self y t)
          · rcases mem_insertSorted t x z h3 with h4 | h4
            · exact Or.inl h4
            · exact Or.inr (List.mem_cons_of_mem y h4)

theorem insertSorted_sorted :
    ∀ (l : List Int) (x : Int), l.Pairwise (· < ·) → (insertSorted x l).Pairwise (· < ·)
  | [], x, _ => by simp [insertSorted]
  | y :: t, x, h => by
      obtain ⟨hy, ht⟩ := List.pairwise_cons.mp h
      rw [insertSorted]
      by_cases h1 : x < y
      · rw [if_pos h1]
        exact List.pairwise_cons.mpr ⟨fun z hz => by
          rcases List.mem_cons.mp hz with h2 | h2
          · omega
          · have := hy z h2
            omega, h⟩
      · rw [if_neg h1]
        by_cases h2 : x = y
        · rw [if_pos h2]
          exact h
        · rw [if_neg h2]
          refine List.pairwise_cons.mpr ⟨fun z hz => ?_, insertSorted_sorted t x ht⟩
          rcases mem_insertSorted t x z hz with h3 | h3
          · omega
          · exact hy z h3

theorem txnsOf_go_sorted :
    ∀ (wf : List (Int × List Int)) (acc : List Int), acc.Pairwise (· < ·) →
      (wf.foldl (fun acc p => insertSorted p.1 acc) acc).Pairwise (· < ·)
  | [], _, h => h
  | p :: rest, acc, h =>
      txnsOf_go_sorted rest (insertSorted p.1 acc) (insertSorted_sorted acc p.1 h)

/-- The transaction set the detector iterates over is sorted in ascending
id order. -/
theorem txnsOf_sorted (wf : List (Int × List Int)) : (txnsOf wf).Pairwise (· < ·) :=
  txnsOf_go_sorted wf [] (by simp)

/-- Soundness of the neighbour loop: under the DFS invariant (the GRAY nodes
are exactly the parent-linked stack), a reported victim is the maximum of a
real cycle, and a clean exit blackens only the current node and leaves the
parents of the stack untouched. -/
theorem dfsList_spec (adj : Int → List Int) (wfuel fuel : Nat)
    (dfs : (Int → DColor) → (Int → Int) → Int →
      Option (Option Int × (Int → DColor) × (Int → Int)))
    (hnode : ∀ (color : Int → DColor) (parent : Int → Int) (s : Int) (stack : List Int),
      (∀ t, color t = .gray ↔ t ∈ stack) →
      (s :: stack).Nodup →
      isChain adj parent (s :: stack) →
      stack.length + fuel ≤ wfuel →
      (∀ v c2 p2, dfs color parent s = some (some v, c2, p2) →
        ∃ cyc, IsCycleWithMax adj cyc v) ∧
      (∀ c2 p2, dfs color parent s = some (none, c2, p2) →
        (∀ t, c2 t = .gray ↔ t ∈ stack) ∧ ∀ t ∈ s :: stack, p2 t = parent t)) :
    ∀ (nexts : List Int) (color : Int → DColor) (parent : Int → Int) (s : Int)
      (stack : List Int),
      (∀ t, color t = .gray ↔ t ∈ s :: stack) →
      (s :: stack).Nodup →
      isChain adj parent (s :: stack) →
      stack.length + fuel + 1 ≤ wfuel →
      (∀ x ∈ nexts, x ∈ adj s) →
      (∀ v c2 p2, dfsList adj wfuel dfs color parent s nexts = some (some v, c2, p2) →
        ∃ cyc, IsCycleWithMax adj cyc v) ∧
      (∀ c2 p2, dfsList adj wfuel dfs color parent s nexts = some (none, c2, p2) →
        (∀ t, c2 t = .gray ↔ t ∈ stack) ∧ ∀ t ∈ s :: stack, p2 t = parent t) := by
  intro nexts
  induction nexts with
  | nil =>
      intro color parent s stack hcol hnd hch hwf hsub
      constructor
      · intro v c2 p2 h
        simp only [dfsList] at h
        simp at h
      · intro c2 p2 h
        simp only [dfsList, Option.some.injEq, Prod.mk.injEq, true_and] at h
        obtain ⟨hc, hp⟩ := h
        subst hc
        subst hp
        have hs : s ∉ stack := (List.nodup_cons.mp hnd).1
        refine ⟨fun t => ?_, fun t _ => rfl⟩
        by_cases ht : t = s
        · subst ht
          simp [hs]
        · simp only [if_neg ht]
          rw [hcol t]
          simp [List.mem_cons, ht]
  | cons next rest ih =>
      intro color parent s stack hcol hnd hch hwf hsub
      by_cases hb : color next = .black
      · have heq : dfsList adj wfuel dfs color parent s (next :: rest) =
            dfsList adj wfuel dfs color parent s rest := by
          simp only [dfsList, if_pos hb]
        rw [heq]
        exact ih color parent s stack hcol hnd hch hwf
          fun x hx => hsub x (List.mem_cons_of_mem next hx)
      · by_cases hg : color next = .gray
        · have heq : dfsList adj wfuel dfs color parent s (next :: rest) =
              some (some (walkMax parent next wfuel s s), color, parent) := by
            simp only [dfsList, if_neg hb, if_pos hg]
          constructor
          · intro v c2 p2 h
            rw [heq] at h
            simp only [Option.some.injEq, Prod.mk.injEq] at h
            obtain ⟨hv, -, -⟩ := h
            subst hv
            have hnmem : next ∈ s :: stack := (hcol next).mp hg
            have hAdj : next ∈ adj s := hsub next (List.mem_cons_self next rest)
            by_cases hns : next = s
            · subst hns
              refine ⟨[next], by simp, trivial, by simpa using hAdj, ?_, ?_⟩
              · rw [walkMax_stop]
                exact List.mem_cons_self next []
              · intro t ht
                rw [walkMax_stop]
                simp at ht
                omega
            · have hnstack : next ∈ stack := by
                rcases List.mem_cons.mp hnmem with h2 | h2
                · exact absurd h2 hns
                · exact h2
              obtain ⟨pre, rest2, hsplit2⟩ := List.append_of_mem hnstack
              have hdecomp : s :: stack = (s :: (pre ++ [next])) ++ rest2 := by
                rw [hsplit2]
                simp
              have hch2 : isChain adj parent (s :: (pre ++ [next])) :=
                isChain_prefix adj (s :: (pre ++ [next])) rest2 parent (hdecomp ▸ hch)
              have hndstack : stack.Nodup := (List.nodup_cons.mp hnd).2
              have hnpre : next ∉ pre := by
                rw [hsplit2] at hndstack
                obtain ⟨-, -, hdisj⟩ := List.nodup_append.mp hndstack
                exact fun hmem => hdisj hmem (List.mem_cons_self next rest2)
              have hlenpre : pre.length < wfuel := by
                have : stack.length = pre.length + rest2.length + 1 := by
                  rw [hsplit2]
                  simp
                  omega
                omega
              have hwalk := walkMax_path adj parent next pre wfuel s s hlenpre hch2
                (fun h2 => hns h2.symm) (fun x hx h2 => hnpre (h2 ▸ hx))
              rw [hwalk]
              refine ⟨s :: (pre ++ [next]), by simp,
                isChain_to_edgeChain adj _ parent hch2, ?_, ?_, ?_⟩
              · rw [show (s :: (pre ++ [next])).getLastD 0 =
                    ((s :: pre) ++ [next]).getLastD 0 by simp,
                  getLastD_concat]
                simpa using hAdj
              · rcases foldl_max_mem (pre ++ [next]) s with h2 | h2
                · rw [h2]
                  exact List.mem_cons_self _ _
                · exact List.mem_cons_of_mem s h2
              · intro t ht
                rcases List.mem_cons.mp ht with h2 | h2
                · subst h2
                  exact le_foldl_max _ _
                · exact mem_le_foldl_max _ s t h2
          · intro c2 p2 h
            rw [heq] at h
            simp at h
        · have hnmem : next ∉ s :: stack := fun hmem => hg ((hcol next).mpr hmem)
          cases hm : dfs color
              (fun t => if t = next then s else parent t) next with
          | none =>
              have heq : dfsList adj wfuel dfs color parent s (next :: rest) = none := by
                simp only [dfsList, if_neg hb, if_neg hg, hm]
              refine ⟨fun v c2 p2 h => ?_, fun c2 p2 h => ?_⟩ <;>
                rw [heq] at h <;> simp at h
          | some res =>
              obtain ⟨ov, cc, pp⟩ := res
              have hspec := hnode color (fun t => if t = next then s else parent t)
                next (s :: stack) hcol
                (List.nodup_cons.mpr ⟨hnmem, hnd⟩)
                (⟨if_pos rfl, hsub next (List.mem_cons_self next rest),
                  isChain_congr adj (s :: stack) parent
                    (fun t => if t = next then s else parent t)
                    (fun x hx => if_neg fun h2 : x = next => hnmem (h2 ▸ hx)) hch⟩)
                (by simp only [List.length_cons]; omega)
              cases ov with
              | some v =>
                  have heq : dfsList adj wfuel dfs color parent s (next :: rest) =
                      some (some v, cc, pp) := by
                    simp only [dfsList, if_neg hb, if_neg hg, hm]
                  refine ⟨fun v0 c0 p0 h => ?_, fun c0 p0 h => ?_⟩
                  · rw [heq] at h
                    simp only [Option.some.injEq, Prod.mk.injEq] at h
                    obtain ⟨hv, -, -⟩ := h
                    subst hv
                    exact hspec.1 v cc pp hm
                  · rw [heq] at h
                    simp at h
              | none =>
                  obtain ⟨hcol2, hpres⟩ := hspec.2 cc pp hm
                  have hpres2 : ∀ t ∈ s :: stack, pp t = parent t := by
                    intro t ht
                    rw [hpres t (List.mem_cons_of_mem next ht)]
                    exact if_neg fun h2 : t = next => hnmem (h2 ▸ ht)
                  have heq : dfsList adj wfuel dfs color parent s (next :: rest) =
                      dfsList adj wfuel dfs cc pp s rest := by
                    simp only [dfsList, if_neg hb, if_neg hg, hm]
                  rw [heq]
                  have hch3 : isChain adj pp (s :: stack) :=
                    isChain_congr adj (s :: stack) parent pp hpres2 hch
                  obtain ⟨ih1, ih2⟩ := ih cc pp s stack hcol2 hnd hch3 hwf
                    fun x hx => hsub x (List.mem_cons_of_mem next hx)
                  refine ⟨ih1, fun c0 p0 h => ?_⟩
                  obtain ⟨ha, hb2⟩ := ih2 c0 p0 h
                  exact ⟨ha, fun t ht => (hb2 t ht).trans (hpres2 t ht)⟩

/-- Soundness of one DFS: a reported victim is the maximum of a real cycle of
the waits-for graph; a clean exit preserves the GRAY stack and its parents. -/
theorem dfsNode_spec (adj : Int → List Int) (wfuel : Nat) :
    ∀ (fuel : Nat) (color : Int → DColor) (parent : Int → Int) (s : Int)
      (stack : List Int),
      (∀ t, color t = .gray ↔ t ∈ stack) →
      (s :: stack).Nodup →
      isChain adj parent (s :: stack) →
      stack.length + fuel ≤ wfuel →
      (∀ v c2 p2, dfsNode adj wfuel fuel color parent s = some (some v, c2, p2) →
        ∃ cyc, IsCycleWithMax adj cyc v) ∧
      (∀ c2 p2, dfsNode adj wfuel fuel color parent s = some (none, c2, p2) →
        (∀ t, c2 t = .gray ↔ t ∈ stack) ∧ ∀ t ∈ s :: stack, p2 t = parent t) := by
  intro fuel
  induction fuel with
  | zero =>
      intro color parent s stack hcol hnd hch hwf
      constructor
      · intro v c2 p2 h
        simp only [dfsNode] at h
        exact Option.noConfusion h
      · intro c2 p2 h
        simp only [dfsNode] at h
        exact Option.noConfusion h
  | succ fuel ihf =>
      intro color parent s stack hcol hnd hch hwf
      have hstep : dfsNode adj wfuel (fuel + 1) color parent s =
          dfsList adj wfuel (dfsNode adj wfuel fuel)
            (fun t => if t = s then .gray else color t) parent s (adj s) := by
        simp only [dfsNode]
      have hgray : ∀ t, (fun t => if t = s then DColor.gray else color t) t = .gray ↔
          t ∈ s :: stack := by
        intro t
        by_cases ht : t = s
        · subst ht
          simp
        · simp only [if_neg ht]
          rw [hcol t]
          simp [List.mem_cons, ht]
      obtain ⟨h1, h2⟩ := dfsList_spec adj wfuel fuel (dfsNode adj wfuel fuel) ihf (adj s)
        (fun t => if t = s then .gray else color t) parent s stack hgray hnd hch
        (by omega) (fun x hx => hx)
      constructor
      · intro v c2 p2 h
        rw [hstep] at h
        exact h1 v c2 p2 h
      · intro c2 p2 h
        rw [hstep] at h
        exact h2 c2 p2 h

/-- Soundness of the outer loop over the sorted transaction set. -/
theorem hasCycleGo_spec (adj : Int → List Int) (fuel : Nat) :
    ∀ (txns : List Int) (v : Int),
      hasCycleGo adj fuel txns = some (some v) →
      ∃ cyc, IsCycleWithMax adj cyc v
  | [], v, h => by simp [hasCycleGo] at h
  | beg :: rest, v, h => by
      rw [hasCycleGo] at h
      cases hm : dfsNode adj fuel fuel (fun _ => .white) (fun _ => -1) beg with
      | none =>
          rw [hm] at h
          simp at h
      | some res =>
          obtain ⟨ov, cc, pp⟩ := res
          cases ov with
          | some w =>
              rw [hm] at h
              simp only [Option.some.injEq] at h
              subst h
              exact (dfsNode_spec adj fuel fuel (fun _ => .white) (fun _ => -1) beg []
                (by simp) (by simp) trivial (by simp)).1 w cc pp hm
          | none =>
              rw [hm] at h
              exact hasCycleGo_spec adj fuel rest v h

/-- **C8.** Whenever the detector (`HasCycle` over the waits-for graph, with
enough fuel for the unbounded C++ recursion) reports a victim, that victim is
the largest transaction id on a real directed cycle of the waits-for graph
that the walk traced, and the outer search iterates over the transaction ids
in strictly ascending order. -/
theorem hasCycle_victim_max_and_sorted
    (wf : List (Int × List Int)) (fuel : Nat) (v : Int)
    (h : HasCycle wf fuel = some (some v)) :
    (∃ cyc, IsCycleWithMax (adjOf wf) cyc v) ∧ (txnsOf wf).Pairwise (· < ·) :=
  ⟨hasCycleGo_spec (adjOf wf) fuel (txnsOf wf) v h, txnsOf_sorted wf⟩

theorem hasCycle_victim_max_and_sorted_witness :
    (∃ cyc, IsCycleWithMax (adjOf [(1, [2]), (2, [1])]) cyc 2) ∧
      (txnsOf [(1, [2]), (2, [1])]).Pairwise (· < ·) :=
  hasCycle_victim_max_and_sorted [(1, [2]), (2, [1])] 4 2 (by decide)

end BusTub
